import Mathlib

/-!
# get-next-version: release-boundary resolution

A shallow embedding of `git/tags.go` (tag resolution), `git/commits.go`
(history scan), `util/to_path_regex.go` and the filter flags of `cli/root.go`,
together with the parts of the libraries they call (`Masterminds/semver`
version parsing and comparison, the `go-git` repository interface), and
theorems about them.

Conventions of the embedding:

* Go strings are `String`; byte-level string functions work on `String.toList`.
* `int64` version components are `Nat`; the 63-bit bound is enforced where the
  library parses them (`strconv.ParseInt(_, 10, 64)`).
* A Go function returning `(T, error)` returns a pair `T × Option Error`,
  `none` being the `nil` error, so that the value returned next to an error
  is part of the model.
* A Go map is an association list with unique keys (`mapGet`, `mapInsert`),
  ranged over in order of first insertion.
-/

set_option autoImplicit false

/-! ## Masterminds/semver (v1): versions, comparison, parsing -/

namespace semver

/-- The struct `semver.Version`: `major`, `minor`, `patch` (int64, never
negative), `pre`, `metadata` and the `original` string that was parsed. -/
structure Version where
  major : Nat
  minor : Nat
  patch : Nat
  pre : String
  metadata : String
  original : String
deriving DecidableEq, Repr

/-- Value of a run of decimal digits, most significant first. -/
def digitsValue (cs : List Char) : Nat :=
  cs.foldl (fun acc c => 10 * acc + (c.toNat - 48)) 0

/-- The call `strconv.ParseUint(s, 10, bits)`: `s` must be a non-empty run of
ASCII digits whose value fits in `bits` bits. On the digit-only strings the
version pattern captures, `strconv.ParseInt(s, 10, 64)` is `parseUint 63`. -/
def parseUint (bits : Nat) (cs : List Char) : Option Nat :=
  if cs.isEmpty then none
  else if cs.all Char.isDigit then
    (if digitsValue cs < 2 ^ bits then some (digitsValue cs) else none)
  else none

/-- The call `strings.Split(s, ".")`: the pieces between the dots
(one empty piece for the empty string). -/
def splitDot : List Char → List (List Char)
  | [] => [[]]
  | c :: cs =>
    match splitDot cs with
    | [] => [[]]
    | p :: ps => if c = '.' then [] :: p :: ps else (c :: p) :: ps

/-- The function `compareSegment`: three-way comparison of two components. -/
def compareSegment (v o : Nat) : Int :=
  if v < o then -1 else if v > o then 1 else 0

/-- The function `comparePrePart`: three-way comparison of two pre-release
identifiers; numeric identifiers compare as numbers and sort before
alphanumeric ones. -/
def comparePrePart (s o : List Char) : Int :=
  if s = o then 0
  else if s.isEmpty then (if !o.isEmpty then -1 else 1)
  else if o.isEmpty then (if !s.isEmpty then 1 else -1)
  else
    match parseUint 64 o, parseUint 64 s with
    | none, none => if o < s then 1 else -1
    | none, some _ => -1
    | some _, none => 1
    | some oi, some si => if si > oi then 1 else -1

/-- The loop of `comparePrerelease` over the dot-separated identifiers, a
missing identifier being the empty one. -/
def comparePreParts : List (List Char) → List (List Char) → Int
  | [], [] => 0
  | s :: ss, [] => if comparePrePart s [] ≠ 0 then comparePrePart s [] else comparePreParts ss []
  | [], o :: os => if comparePrePart [] o ≠ 0 then comparePrePart [] o else comparePreParts [] os
  | s :: ss, o :: os => if comparePrePart s o ≠ 0 then comparePrePart s o else comparePreParts ss os

/-- The function `comparePrerelease`. -/
def comparePrerelease (v o : String) : Int :=
  comparePreParts (splitDot v.toList) (splitDot o.toList)

/-- The method `Version.Compare`: -1, 0 or 1; major, minor and patch first,
then the pre-release (a version without one is the greater); build metadata
is ignored. -/
def Version.Compare (v o : Version) : Int :=
  if compareSegment v.major o.major ≠ 0 then compareSegment v.major o.major
  else if compareSegment v.minor o.minor ≠ 0 then compareSegment v.minor o.minor
  else if compareSegment v.patch o.patch ≠ 0 then compareSegment v.patch o.patch
  else if v.pre = "" ∧ o.pre = "" then 0
  else if v.pre = "" then 1
  else if o.pre = "" then -1
  else comparePrerelease v.pre o.pre

/-- The method `Version.Equal`: `Compare` reports 0. -/
def Version.Equal (v o : Version) : Bool :=
  decide (v.Compare o = 0)

/-- Character class `[0-9A-Za-z\-]` of the version pattern. -/
def isIdentChar (c : Char) : Bool :=
  c.isAlphanum || c == '-'

/-- Whether a string matches `[0-9A-Za-z\-]+(\.[0-9A-Za-z\-]+)*`. -/
def validIdents (cs : List Char) : Bool :=
  (splitDot cs).all (fun p => !p.isEmpty && p.all isIdentChar)

/-- An optional group `(\.[0-9]+)?` at the head of the input: the digits
captured (none when the group does not take part) and the remaining input. -/
def optDotDigits (rest : List Char) : List Char × List Char :=
  match rest with
  | '.' :: r =>
    if (r.span Char.isDigit).1.isEmpty then ([], rest) else r.span Char.isDigit
  | _ => ([], rest)

/-- The end of the version pattern,
`(-([0-9A-Za-z\-]+(\.[0-9A-Za-z\-]+)*))?(\+([0-9A-Za-z\-]+(\.[0-9A-Za-z\-]+)*))?$`:
the pre-release and the metadata captured, when the input matches. -/
def parseTail (rest : List Char) : Option (List Char × List Char) :=
  match rest with
  | [] => some ([], [])
  | '-' :: r =>
    if validIdents (r.span (fun c => c != '+')).1 then
      match (r.span (fun c => c != '+')).2 with
      | [] => some ((r.span (fun c => c != '+')).1, [])
      | _ :: m => if validIdents m then some ((r.span (fun c => c != '+')).1, m) else none
    else none
  | '+' :: m => if validIdents m then some ([], m) else none
  | _ => none

/-- Component of a version from its captured group: 0 when the group did not
take part, otherwise `strconv.ParseInt(digits, 10, 64)`. -/
def parseSegment (digits : List Char) : Option Nat :=
  if digits.isEmpty then some 0 else parseUint 63 digits

/-- A string without its leading "v", when it has one: the optional `v?` of
the version pattern, and `strings.HasPrefix(s, "v")` followed by `s[1:]`. -/
def trimV (cs : List Char) : List Char :=
  match cs with
  | 'v' :: rest => rest
  | _ => cs

/-- The function `semver.NewVersion`: match the whole string against
`v?([0-9]+)(\.[0-9]+)?(\.[0-9]+)?(-pre)?(\+metadata)?` and parse the three
numeric groups as int64; `none` stands for any returned error. -/
def NewVersion (v : String) : Option Version :=
  let s := trimV v.toList
  let d1 := (s.span Char.isDigit).1
  let g2 := optDotDigits (s.span Char.isDigit).2
  let g3 := optDotDigits g2.2
  if d1.isEmpty then none
  else
    match parseTail g3.2 with
    | none => none
    | some (pre, metadata) =>
      match parseUint 63 d1, parseSegment g2.1, parseSegment g3.1 with
      | some major, some minor, some patch =>
        some ⟨major, minor, patch, String.mk pre, String.mk metadata, v⟩
      | _, _, _ => none

/-- The function `semver.MustParse`: `NewVersion`, an error being a panic
(`none`). -/
def MustParse (v : String) : Option Version :=
  NewVersion v

end semver

/-! ## Collaborators: errors, go-git objects, regular expressions, classifier -/

/-- Type `plumbing.Hash`: an opaque object identifier, used only as a key. -/
abbrev Hash := Nat

/-- Error values produced by the libraries (`go-git`, `io`): the sentinels the
code compares against, and every other error, told apart by its message. -/
inductive LibError where
  | ErrReferenceNotFound
  | ErrObjectNotFound
  | EOF
  | other (msg : String)
deriving DecidableEq, Repr

/-- Error values this package can return. Go compares errors by identity:
`ErrNoCommitsFound` and the error built at a version conflict are created in
this package by `errors.New`, so no library call ever returns one of them;
`runtimePanic` stands for a Go run-time panic (indexing an empty slice,
`MustParse` on an invalid string). -/
inductive Error where
  | lib (e : LibError)
  | ErrNoCommitsFound
  | multipleSemver (commit : Hash)
  | runtimePanic
deriving DecidableEq, Repr

/-- A tag reference `*plumbing.Reference`: `Name().Short()` and `Hash()`. -/
structure Reference where
  Name : String
  Hash : Hash
deriving DecidableEq, Repr

/-- An annotated tag object `*object.Tag`, reduced to what `Commit()` returns:
the hash of the commit it points at, or an error. -/
structure TagObject where
  Commit : Except LibError Hash

/-- A commit `*object.Commit`: its hash and its message. -/
structure Commit where
  Hash : Hash
  Message : String
deriving DecidableEq, Repr

/-- A commit iterator `object.CommitIter`: `Next()` yields `commits` one after
the other and then reports `err` (`io.EOF` at the ordinary end of history). -/
structure CommitIter where
  commits : List Commit
  err : LibError

/-- The options `git.LogOptions` the scan sets; `Order` is always
`LogOrderCommitterTime`. -/
structure LogOptions where
  From : Hash
  PathFilter : String → Bool

/-- The methods of `*git.Repository` the code calls. `Tags()` gives an
iterator over a slice of references, so iteration itself cannot fail. -/
structure Repository where
  Tags : Except LibError (List Reference)
  TagObject : Hash → Except LibError TagObject
  Head : Except LibError Reference
  Log : LogOptions → Except LibError CommitIter

/-- A compiled `*regexp.Regexp`, by the two methods the code calls.
`FindStringSubmatch` returns the whole match followed by the capture groups,
and the empty slice when there is no match. -/
structure Regexp where
  MatchString : String → Bool
  FindStringSubmatch : String → List String

namespace conventionalcommits

/-- The commit categories `conventionalcommits.Type`. -/
inductive CommitType where
  | Chore
  | Fix
  | Feature
  | BreakingChange
deriving DecidableEq, Repr

/-- Modelled from the spec: the Commit Classifier of package
`conventionalcommits`, whose source is not part of the files at hand
(`Classify(message, config) → CommitSeverity`, may fail for an unrecognized
message shape). A classifier is the function it computes; `none` is a
failure. -/
structure TypeClassifier where
  classify : String → Option CommitType

/-- Modelled from the spec: `CommitMessageToTypeWithClassifier`, the call of
the Commit Classifier on one message. -/
def CommitMessageToTypeWithClassifier (message : String) (classifier : TypeClassifier) :
    Option CommitType :=
  classifier.classify message

end conventionalcommits

/-! ## Go maps -/

/-- Lookup `m[k]` in a map kept as an association list. -/
def mapGet {α : Type} (m : List (Hash × α)) (k : Hash) : Option α :=
  match m with
  | [] => none
  | (k', v) :: rest => if k' = k then some v else mapGet rest k

/-- Assignment `m[k] = v`: replaces the entry of `k` or adds one. -/
def mapInsert {α : Type} (m : List (Hash × α)) (k : Hash) (v : α) : List (Hash × α) :=
  match m with
  | [] => [(k, v)]
  | (k', v') :: rest => if k' = k then (k, v) :: rest else (k', v') :: mapInsert rest k v

/-! ## git/tags.go -/

namespace git

open semver

/-- Type `Tags = map[plumbing.Hash]*semver.Version`. -/
abbrev Tags := List (Hash × Version)

/-- Struct `tagCandidate`. -/
structure tagCandidate where
  originalName : String
  version : Version
deriving DecidableEq, Repr

/-- Function `getTagSpecificity`: the number of "." in the tag name, one
leading "v" removed. -/
def getTagSpecificity (tagName : String) : Nat :=
  let cleanTag := trimV tagName.toList
  cleanTag.count '.'

/-- Function `areCompatibleGranularities`. -/
def areCompatibleGranularities (leftVersion rightVersion : Version) : Bool :=
  if leftVersion.Equal rightVersion then true
  else if leftVersion.major ≠ rightVersion.major then false
  else if (leftVersion.minor = 0 ∧ leftVersion.patch = 0) ∨
      (rightVersion.minor = 0 ∧ rightVersion.patch = 0) then true
  else if leftVersion.minor = rightVersion.minor then
    (if leftVersion.patch = 0 ∨ rightVersion.patch = 0 then true
     else decide (leftVersion.patch = rightVersion.patch))
  else false

/-- The loop of `selectMostSpecificTag` over `candidates[1:]`. -/
def selectLoop (mostSpecific : tagCandidate) (maxSpecificity : Nat) :
    List tagCandidate → tagCandidate
  | [] => mostSpecific
  | candidate :: rest =>
    if getTagSpecificity candidate.originalName > maxSpecificity then
      selectLoop candidate (getTagSpecificity candidate.originalName) rest
    else selectLoop mostSpecific maxSpecificity rest

/-- Function `selectMostSpecificTag`; `none` is the panic of `candidates[0]`
on an empty slice. -/
def selectMostSpecificTag (candidates : List tagCandidate) : Option Version :=
  match candidates with
  | [] => none
  | [only] => some only.version
  | first :: rest =>
    some (selectLoop first (getTagSpecificity first.originalName) rest).version

/-- The filter given to `storer.NewReferenceFilteredIter` (tags.go 83-88). -/
def tagsFilter (tagsFilterPathRegex : Option Regexp) (ref : Reference) : Bool :=
  match tagsFilterPathRegex with
  | none => true
  | some re => re.MatchString ref.Name

/-- The commit a tag stands for (tags.go 93-106): the commit of its tag
object, the reference hash itself when there is no tag object, and an error
for any other failure. -/
def commitHashOf (repository : Repository) (tag : Reference) : Except LibError Hash :=
  match repository.TagObject tag.Hash with
  | .ok tagObject =>
    match tagObject.Commit with
    | .ok commit => .ok commit
    | .error err => .error err
  | .error .ErrObjectNotFound => .ok tag.Hash
  | .error err => .error err

/-- The string given to `semver.NewVersion` (tags.go 108-115). -/
def versionString (versionRegex : Option Regexp) (tagName : String) : String :=
  match versionRegex with
  | none => tagName
  | some re =>
    match re.FindStringSubmatch tagName with
    | _ :: group :: _ => group
    | _ => tagName

/-- The callback given to `tagsIterator.ForEach` (tags.go 92-128), as a
function of the map built so far. -/
def forEachTag (repository : Repository) (versionRegex : Option Regexp)
    (commitTags : List (Hash × List tagCandidate)) (tag : Reference) :
    Except LibError (List (Hash × List tagCandidate)) :=
  match commitHashOf repository tag with
  | .error err => .error err
  | .ok commitHash =>
    match NewVersion (versionString versionRegex tag.Name) with
    | none => .ok commitTags
    | some version =>
      .ok (mapInsert commitTags commitHash
        ((mapGet commitTags commitHash).getD [] ++ [⟨tag.Name, version⟩]))

/-- Method `ForEach` of the reference iterator: the callback on each
reference in turn, stopping at the first error. -/
def forEach (repository : Repository) (versionRegex : Option Regexp)
    (commitTags : List (Hash × List tagCandidate)) :
    List Reference → Except LibError (List (Hash × List tagCandidate))
  | [] => .ok commitTags
  | tag :: rest =>
    match forEachTag repository versionRegex commitTags tag with
    | .error err => .error err
    | .ok commitTags' => forEach repository versionRegex commitTags' rest

/-- The flag `hasDifferentVersions` computed for one commit (tags.go
135-144): some candidate after the first is not compatible with the first. -/
def hasDifferentVersions (candidates : List tagCandidate) : Bool :=
  match candidates with
  | [] => false
  | first :: rest =>
    if candidates.length > 1 then
      rest.any (fun candidate => !areCompatibleGranularities first.version candidate.version)
    else false

/-- The loop over `commitTags` (tags.go 133-154), `tags` being the map
filled so far. Go ranges over a map in an unspecified order; here the commits
come in the order in which they were first inserted. The order decides only
which commit the error names when several commits carry a conflict. -/
def resolveCommitTags (tags : Tags) : List (Hash × List tagCandidate) → Tags × Option Error
  | [] => (tags, none)
  | (commitHash, candidates) :: rest =>
    if hasDifferentVersions candidates then ([], some (.multipleSemver commitHash))
    else
      match selectMostSpecificTag candidates with
      | none => ([], some .runtimePanic)
      | some version => resolveCommitTags (mapInsert tags commitHash version) rest

/-- Function `GetAllSemVerTags`. -/
def GetAllSemVerTags (repository : Repository) (tagsFilterPathRegex : Option Regexp)
    (versionRegex : Option Regexp) : Tags × Option Error :=
  match repository.Tags with
  | .error err => ([], some (.lib err))
  | .ok tagsIterator =>
    match forEach repository versionRegex []
        (tagsIterator.filter (tagsFilter tagsFilterPathRegex)) with
    | .error err => ([], some (.lib err))
    | .ok commitTags => resolveCommitTags [] commitTags

end git

/-! ## git/commits.go -/

namespace git

open semver conventionalcommits

/-- Struct `ConventionalCommitTypesResult`: a version pointer (`none` is
`nil`) and a slice of types (`none` is the `nil` slice). -/
structure ConventionalCommitTypesResult where
  LatestReleaseVersion : Option Version
  ConventionalCommitTypes : Option (List CommitType)
deriving DecidableEq, Repr

/-- The zero value `ConventionalCommitTypesResult{}` returned next to an
error. -/
def emptyResult : ConventionalCommitTypesResult :=
  ⟨none, none⟩

/-- The `PathFilter` given to `repository.Log` (commits.go 42-47). -/
def pathFilter (commitsFilterPathRegex : Option Regexp) (path : String) : Bool :=
  match commitsFilterPathRegex with
  | none => true
  | some re => re.MatchString path

/-- The type recorded for a commit that is not a release (commits.go 63-66):
its classification, `Chore` when the classifier fails. -/
def commitTypeOf (classifier : TypeClassifier) (commit : Commit) : CommitType :=
  match CommitMessageToTypeWithClassifier commit.Message classifier with
  | some currentCommitType => currentCommitType
  | none => .Chore

/-- The loop of the scan (commits.go 53-72) over the commits the iterator
still has to yield, `err` being what `Next()` reports after them. Returns
`latestReleaseVersion`, `conventionalCommitTypes` and `currentCommitErr` as
they are when the loop is left. -/
def scanLoop (tags : Tags) (classifier : TypeClassifier)
    (conventionalCommitTypes : List CommitType) (err : LibError) :
    List Commit → Option Version × List CommitType × Option LibError
  | [] => (none, conventionalCommitTypes, some err)
  | currentCommit :: rest =>
    match mapGet tags currentCommit.Hash with
    | some version => (some version, conventionalCommitTypes, none)
    | none =>
      scanLoop tags classifier
        (conventionalCommitTypes ++ [commitTypeOf classifier currentCommit]) err rest

/-- Function `GetConventionalCommitTypesSinceLastRelease`. -/
def GetConventionalCommitTypesSinceLastRelease (repository : Repository)
    (classifier : TypeClassifier) (commitsFilterPathRegex : Option Regexp)
    (tagsFilterRegex : Option Regexp) (versionRegex : Option Regexp) :
    ConventionalCommitTypesResult × Option Error :=
  match GetAllSemVerTags repository tagsFilterRegex versionRegex with
  | (_, some err) => (emptyResult, some err)
  | (tags, none) =>
    match repository.Head with
    | .error err =>
      if err = .ErrReferenceNotFound then (emptyResult, some .ErrNoCommitsFound)
      else (emptyResult, some (.lib err))
    | .ok head =>
      match repository.Log ⟨head.Hash, pathFilter commitsFilterPathRegex⟩ with
      | .error err => (emptyResult, some (.lib err))
      | .ok commitIterator =>
        match scanLoop tags classifier [] commitIterator.err commitIterator.commits with
        | (latestReleaseVersion, conventionalCommitTypes, none) =>
          (⟨latestReleaseVersion, some conventionalCommitTypes⟩, none)
        | (_, conventionalCommitTypes, some currentCommitErr) =>
          if currentCommitErr ≠ .EOF then (emptyResult, some (.lib currentCommitErr))
          else
            match MustParse "0.0.0" with
            | none => (emptyResult, some .runtimePanic)
            | some zero => (⟨some zero, some conventionalCommitTypes⟩, none)

end git

/-! ## Candidates of a commit -/

namespace git

open semver

/-- The candidate a tag contributes to commit `commitHash`: the tag must
stand for that commit and its version string must parse. -/
def candidateFor (repository : Repository) (versionRegex : Option Regexp)
    (commitHash : Hash) (tag : Reference) : Option tagCandidate :=
  match commitHashOf repository tag with
  | .error _ => none
  | .ok h =>
    if h = commitHash then
      (NewVersion (versionString versionRegex tag.Name)).map
        (fun version => ⟨tag.Name, version⟩)
    else none

/-- The candidates of commit `commitHash` among `tags`, in the order of
`tags`. -/
def candidatesOf (repository : Repository) (versionRegex : Option Regexp)
    (tags : List Reference) (commitHash : Hash) : List tagCandidate :=
  tags.filterMap (candidateFor repository versionRegex commitHash)

end git

/-! ## Repositories that differ in their tag list -/

namespace git

open semver

/-- The repository with `tags` as its list of tag references, everything
else as in `repository`. -/
def withTags (repository : Repository) (tags : List Reference) : Repository :=
  { repository with Tags := .ok tags }

/-- Whether the version string of a tag parses as a semantic version. -/
def parses (versionRegex : Option Regexp) (tag : Reference) : Bool :=
  (NewVersion (versionString versionRegex tag.Name)).isSome

end git

/-! ## Tag names written from version numbers -/

namespace semver

/-- The tag name "vN". -/
def majorTag (N : Nat) : String :=
  "v" ++ toString N

/-- The tag name "vN.M". -/
def minorTag (N M : Nat) : String :=
  "v" ++ toString N ++ "." ++ toString M

/-- The tag name "vN.M.P". -/
def fullTag (N M P : Nat) : String :=
  "v" ++ toString N ++ "." ++ toString M ++ "." ++ toString P

/-- The tag name "N.M.P". -/
def plainTag (N M P : Nat) : String :=
  toString N ++ "." ++ toString M ++ "." ++ toString P

end semver

/-! ## Release boundary of a walk -/

namespace git

/-- The commits of a walk that come before the release boundary: the commits
at the start of the walk up to, and without, the first one that is in the
release map. -/
def beforeBoundary (tags : Tags) (commits : List Commit) : List Commit :=
  commits.takeWhile (fun c => (mapGet tags c.Hash).isNone)

/-- The release boundary of a walk: its first commit that is in the release
map, when there is one. -/
def boundaryOf (tags : Tags) (commits : List Commit) : Option Commit :=
  (commits.dropWhile (fun c => (mapGet tags c.Hash).isNone)).head?

end git

/-! ## Histories and the paths their commits touched -/

/-- Modelled from the spec: a commit of the history together with the paths
it touched (the walk exposes each commit with a predicate for "this commit
touched at least one path of interest"). -/
structure HistoryCommit where
  commit : Commit
  paths : List String
deriving DecidableEq, Repr

/-- Whether a commit touched at least one path that the predicate accepts. -/
def touches (pathPredicate : String → Bool) (c : HistoryCommit) : Bool :=
  c.paths.any pathPredicate

/-- Modelled from the spec: `WalkCommits(startHash, order=time-descending,
pathPredicate)`, what `repository.Log` with a `PathFilter` yields for a
history given from head backward: only the commits that touched a path
accepted by the predicate, then end-of-history. -/
def walkCommits (history : List HistoryCommit) (pathPredicate : String → Bool) : CommitIter :=
  ⟨(history.filter (touches pathPredicate)).map (fun c => c.commit), .EOF⟩

/-! ## util/to_path_regex.go and the flags of cli/root.go -/

namespace util

/-- Struct `PathFilterRegex`; `Regex` is a pointer, `none` in the zero
value. -/
structure PathFilterRegex where
  Regex : Option Regexp
  Exclude : Bool

/-- Function `ToPathRegex`, `regexp.Compile` being the parameter `Compile`. -/
def ToPathRegex (Compile : String → Except LibError Regexp) (path : String) :
    PathFilterRegex × Option LibError :=
  let regexStr := match path.toList with
    | '!' :: rest => String.mk rest
    | _ => path
  let exclude := match path.toList with
    | '!' :: _ => true
    | _ => false
  match Compile regexStr with
  | .error err => (⟨none, false⟩, some err)
  | .ok regex => (⟨some regex, exclude⟩, none)

end util

namespace cli

/-- The variable `commitsFilterPathRegex` of `RootCommand` (root.go 72-80):
`nil` for the empty flag, otherwise `regexp.MustCompile` of the flag, whose
panic on an invalid pattern is the outer `none`. -/
def commitsFilterPathRegex (Compile : String → Except LibError Regexp)
    (rootCommitsFilterPathRegexFlag : String) : Option (Option Regexp) :=
  if rootCommitsFilterPathRegexFlag ≠ "" then
    match Compile rootCommitsFilterPathRegexFlag with
    | .ok re => some (some re)
    | .error _ => none
  else some none

/-- The path predicate that the scan hands to `repository.Log` for a value of
the flag `--commits-filter-path-regex` (root.go 78-91, commits.go 42-47). -/
def pathPredicate (Compile : String → Except LibError Regexp)
    (rootCommitsFilterPathRegexFlag : String) : Option (String → Bool) :=
  (commitsFilterPathRegex Compile rootCommitsFilterPathRegexFlag).map git.pathFilter

end cli

/-! ## All-pairs comparison, patterns without their "!", other histories -/

namespace git

/-- The all-pairs comparison of the candidates of one commit: every two of
them are granularity-compatible. -/
def allPairsCompatible (candidates : List tagCandidate) : Bool :=
  candidates.all (fun a =>
    candidates.all (fun b => areCompatibleGranularities a.version b.version))

/-- The repository with another head and another history, its tags and tag
objects as in `repository`. -/
def withHistory (repository : Repository) (head : Except LibError Reference)
    (log : LogOptions → Except LibError CommitIter) : Repository :=
  { repository with Head := head, Log := log }

end git

namespace util

/-- Whether a pattern string starts with "!". -/
def hasBang (path : String) : Bool :=
  match path.toList with
  | '!' :: _ => true
  | _ => false

/-- A pattern string with exactly one leading "!" removed, when it starts
with "!", and unchanged otherwise. -/
def trimBang (path : String) : String :=
  match path.toList with
  | '!' :: rest => String.mk rest
  | _ => path

end util

/-! ## Example repositories -/

namespace examples

open git semver conventionalcommits

/-- A repository without tag objects: every tag is a lightweight tag. -/
def lightweight : Hash → Except LibError TagObject :=
  fun _ => .error .ErrObjectNotFound

/-- A classifier that knows two messages and fails on every other one. -/
def classifier : TypeClassifier :=
  ⟨fun message =>
    if message = "fix: x" then some .Fix
    else if message = "feat: y" then some .Feature
    else none⟩

/-- History `[tag 1.0.0 @ 1] → "fix: x" (2) → "feat: y" (3, head)`. -/
def repoRelease : Repository where
  Tags := .ok [⟨"1.0.0", 1⟩]
  TagObject := lightweight
  Head := .ok ⟨"main", 3⟩
  Log := fun _ => .ok ⟨[⟨3, "feat: y"⟩, ⟨2, "fix: x"⟩, ⟨1, "chore: release"⟩], .EOF⟩

/-- History of two commits and no tag at all. -/
def repoUntagged : Repository where
  Tags := .ok []
  TagObject := lightweight
  Head := .ok ⟨"main", 2⟩
  Log := fun _ => .ok ⟨[⟨2, "feat: y"⟩, ⟨1, "first"⟩], .EOF⟩

/-- A repository without head and without tags. -/
def repoEmpty : Repository where
  Tags := .ok []
  TagObject := lightweight
  Head := .error .ErrReferenceNotFound
  Log := fun _ => .error (.other "no head")

/-- A repository without head (no commit), in which the lightweight tags
"1.0.0" and "2.0.0" name one and the same object. -/
def repoEmptyTagged : Repository where
  Tags := .ok [⟨"1.0.0", 5⟩, ⟨"2.0.0", 5⟩]
  TagObject := lightweight
  Head := .error .ErrReferenceNotFound
  Log := fun _ => .error (.other "no head")

/-- One commit carrying the lightweight tags "v4", "v4.1.0" and "v4.2.0",
enumerated in this order. -/
def repoPivot : Repository where
  Tags := .ok [⟨"v4", 7⟩, ⟨"v4.1.0", 7⟩, ⟨"v4.2.0", 7⟩]
  TagObject := lightweight
  Head := .ok ⟨"main", 7⟩
  Log := fun _ => .ok ⟨[⟨7, "chore: release"⟩], .EOF⟩

/-- The tags of `repoPivot`, enumerated as "v4.1.0", "v4", "v4.2.0". -/
def repoPivotReordered : Repository :=
  withTags repoPivot [⟨"v4.1.0", 7⟩, ⟨"v4", 7⟩, ⟨"v4.2.0", 7⟩]

/-- One commit carrying the lightweight tags "v4", "v4.5" and "v4.5.14". -/
def repoGranular : Repository where
  Tags := .ok [⟨"v4", 7⟩, ⟨"v4.5", 7⟩, ⟨"v4.5.14", 7⟩]
  TagObject := lightweight
  Head := .ok ⟨"main", 7⟩
  Log := fun _ => .ok ⟨[⟨7, "chore: release"⟩], .EOF⟩

/-- One commit carrying the lightweight tags "1.0.0" and "v1.0.0". -/
def repoSameVersion : Repository where
  Tags := .ok [⟨"1.0.0", 7⟩, ⟨"v1.0.0", 7⟩]
  TagObject := lightweight
  Head := .ok ⟨"main", 7⟩
  Log := fun _ => .ok ⟨[⟨7, "chore: release"⟩], .EOF⟩

/-- A lightweight tag "1.0.0" on commit 1 and an annotated tag "docs" whose
tag object 9 does not point at a commit, so that `Commit()` fails. -/
def repoBrokenTag : Repository where
  Tags := .ok [⟨"1.0.0", 1⟩, ⟨"docs", 9⟩]
  TagObject := fun h =>
    if h = 9 then .ok ⟨.error (.other "unsupported object")⟩ else .error .ErrObjectNotFound
  Head := .ok ⟨"main", 1⟩
  Log := fun _ => .ok ⟨[⟨1, "chore: release"⟩], .EOF⟩

/-- A lightweight tag "1.0.0" on commit 1 and a lightweight tag "docs" on
commit 2. -/
def repoDocsTag : Repository where
  Tags := .ok [⟨"1.0.0", 1⟩, ⟨"docs", 2⟩]
  TagObject := lightweight
  Head := .ok ⟨"main", 2⟩
  Log := fun _ => .ok ⟨[⟨2, "docs: more"⟩, ⟨1, "chore: release"⟩], .EOF⟩

/-- One commit carrying the lightweight tags "v4.0.0" and "v4.1.0". -/
def repoFullZero : Repository where
  Tags := .ok [⟨"v4.0.0", 7⟩, ⟨"v4.1.0", 7⟩]
  TagObject := lightweight
  Head := .ok ⟨"main", 7⟩
  Log := fun _ => .ok ⟨[⟨7, "chore: release"⟩], .EOF⟩

/-- One commit carrying the lightweight tags "v4.1.0" and "v4.1.5". -/
def repoFullPatch : Repository where
  Tags := .ok [⟨"v4.1.0", 7⟩, ⟨"v4.1.5", 7⟩]
  TagObject := lightweight
  Head := .ok ⟨"main", 7⟩
  Log := fun _ => .ok ⟨[⟨7, "chore: release"⟩], .EOF⟩

/-- One commit carrying the lightweight tags "v4.1.0" and "v4.2.0" with the
major replaced by 2^63, which is not an int64. -/
def repoHugeFull : Repository where
  Tags := .ok [⟨"v9223372036854775808.1.0", 7⟩, ⟨"v9223372036854775808.2.0", 7⟩]
  TagObject := lightweight
  Head := .ok ⟨"main", 7⟩
  Log := fun _ => .ok ⟨[⟨7, "chore: release"⟩], .EOF⟩

/-- A tag "docs" whose tag object 9 does not point at a commit, the tag
"v3.0.0" on commit 1 and the tags "v4.1.0" and "v4.2.0" on commit 7. -/
def repoFullConflictAmong : Repository where
  Tags := .ok [⟨"docs", 9⟩, ⟨"v3.0.0", 1⟩, ⟨"v4.1.0", 7⟩, ⟨"v4.2.0", 7⟩]
  TagObject := fun h =>
    if h = 9 then .ok ⟨.error (.other "unsupported object")⟩ else .error .ErrObjectNotFound
  Head := .ok ⟨"main", 7⟩
  Log := fun _ => .ok ⟨[⟨7, "chore: release"⟩, ⟨1, "chore: release"⟩], .EOF⟩

/-- One commit carrying the three tags "vN", "vN.0", "vN.0.0" for N = 2^63. -/
def repoHuge : Repository where
  Tags := .ok [⟨"v9223372036854775808", 7⟩, ⟨"v9223372036854775808.0", 7⟩,
    ⟨"v9223372036854775808.0.0", 7⟩]
  TagObject := lightweight
  Head := .ok ⟨"main", 7⟩
  Log := fun _ => .ok ⟨[⟨7, "chore: release"⟩], .EOF⟩
/-- Whether the text `s` contains the text `p`. -/
def containsText (p : List Char) : List Char → Bool
  | [] => p.isEmpty
  | c :: cs => p.isPrefixOf (c :: cs) || containsText p cs

/-- The compiled form of a pattern without metacharacters and without
capture group: it matches the strings that contain the pattern. -/
def literal (pattern : String) : Regexp where
  MatchString := fun s => containsText pattern.toList s.toList
  FindStringSubmatch := fun s =>
    if containsText pattern.toList s.toList then [pattern] else []

/-- What follows the first place where `p` occurs in the text followed by at
least one more character. -/
def textAfter (p : List Char) : List Char → Option (List Char)
  | [] => none
  | c :: cs =>
    if p.isPrefixOf (c :: cs) && !((c :: cs).drop p.length).isEmpty then
      some ((c :: cs).drop p.length)
    else textAfter p cs

/-- The compiled form of a pattern `lit(.+)`, `lit` without metacharacters,
on strings without line break: the capture group is what follows the first
occurrence of `lit`. -/
def literalThenGroup (lit : String) : Regexp where
  MatchString := fun s => (textAfter lit.toList s.toList).isSome
  FindStringSubmatch := fun s =>
    match textAfter lit.toList s.toList with
    | some rest => [lit ++ String.mk rest, String.mk rest]
    | none => []

/-- A stand-in for `regexp.Compile` that reads every pattern as literal text,
which is what it is for a pattern without metacharacters. -/
def compileLiteral : String → Except LibError Regexp :=
  fun pattern => .ok (literal pattern)

/-- One commit carrying the lightweight tag "common-4.5.14". -/
def repoCommon : Repository where
  Tags := .ok [⟨"common-4.5.14", 7⟩]
  TagObject := lightweight
  Head := .ok ⟨"main", 7⟩
  Log := fun _ => .ok ⟨[⟨7, "chore: release"⟩], .EOF⟩

/-- Tags "component-1.0.0" on commit 1 and "2.0.0" on commit 2, and a tag
"docs" whose tag object 9 does not point at a commit. -/
def repoComponent : Repository where
  Tags := .ok [⟨"component-1.0.0", 1⟩, ⟨"2.0.0", 2⟩, ⟨"docs", 9⟩]
  TagObject := fun h =>
    if h = 9 then .ok ⟨.error (.other "unsupported object")⟩ else .error .ErrObjectNotFound
  Head := .ok ⟨"main", 3⟩
  Log := fun _ =>
    .ok ⟨[⟨3, "feat: y"⟩, ⟨2, "chore: release"⟩, ⟨1, "chore: release"⟩], .EOF⟩

/-- History `"Last release" (1) → "fix: x" (2, head)`, commit 1 marked by the
annotated tag "1.0.0" whose tag object has hash 50. -/
def repoAnnotated : Repository where
  Tags := .ok [⟨"1.0.0", 50⟩]
  TagObject := fun h => if h = 50 then .ok ⟨.ok 1⟩ else .error .ErrObjectNotFound
  Head := .ok ⟨"main", 2⟩
  Log := fun _ => .ok ⟨[⟨2, "fix: x"⟩, ⟨1, "Last release"⟩], .EOF⟩

/-- A single tag "docs", annotated, whose tag object 9 does not point at a
commit. -/
def repoOnlyBrokenTag : Repository where
  Tags := .ok [⟨"docs", 9⟩]
  TagObject := fun h =>
    if h = 9 then .ok ⟨.error (.other "unsupported object")⟩ else .error .ErrObjectNotFound
  Head := .ok ⟨"main", 1⟩
  Log := fun _ => .ok ⟨[⟨1, "first"⟩], .EOF⟩

/-- Tag "1.0.0" on commit 1, tags "2.0.0" and "3.0.0" on commit 2. -/
def repoLaterConflict : Repository where
  Tags := .ok [⟨"1.0.0", 1⟩, ⟨"2.0.0", 2⟩, ⟨"3.0.0", 2⟩]
  TagObject := lightweight
  Head := .ok ⟨"main", 2⟩
  Log := fun _ => .ok ⟨[⟨2, "feat: y"⟩, ⟨1, "first"⟩], .EOF⟩

/-- History from head backward: "feat: y" (3) touched `src/a`; the release
commit 2 touched only `docs/x`; "fix: x" (1) touched `src/b`. -/
def historyDocsRelease : List HistoryCommit :=
  [⟨⟨3, "feat: y"⟩, ["src/a"]⟩, ⟨⟨2, "docs: release"⟩, ["docs/x"]⟩, ⟨⟨1, "fix: x"⟩, ["src/b"]⟩]

/-- The history `historyDocsRelease` with the tag "1.0.0" on commit 2. -/
def repoDocsRelease : Repository where
  Tags := .ok [⟨"1.0.0", 2⟩]
  TagObject := lightweight
  Head := .ok ⟨"main", 3⟩
  Log := fun o => .ok (walkCommits historyDocsRelease o.PathFilter)

/-- History from head backward: "feat: y" (3) touched `src/a`; commit 2
touched only `docs/x`; the release commit 1 touched `src/b`; commit 0 touched
`src/c`. -/
def historySrcRelease : List HistoryCommit :=
  [⟨⟨3, "feat: y"⟩, ["src/a"]⟩, ⟨⟨2, "fix: x"⟩, ["docs/x"]⟩,
    ⟨⟨1, "chore: release"⟩, ["src/b"]⟩, ⟨⟨0, "feat: y"⟩, ["src/c"]⟩]

/-- The history `historySrcRelease` with the tag "1.0.0" on commit 1. -/
def repoSrcRelease : Repository where
  Tags := .ok [⟨"1.0.0", 1⟩]
  TagObject := lightweight
  Head := .ok ⟨"main", 3⟩
  Log := fun o => .ok (walkCommits historySrcRelease o.PathFilter)

/-- A repository whose commit iterator cannot be built. -/
def repoLogFails : Repository where
  Tags := .ok []
  TagObject := lightweight
  Head := .ok ⟨"main", 2⟩
  Log := fun _ => .error (.other "object not readable")

/-- A repository whose walk yields one commit and then fails. -/
def repoWalkFails : Repository where
  Tags := .ok []
  TagObject := lightweight
  Head := .ok ⟨"main", 2⟩
  Log := fun _ => .ok ⟨[⟨2, "feat: y"⟩], .other "object not readable"⟩

/-- One commit carrying the lightweight tags "v1.2.3" and "v1.2.3-rc.1". -/
def repoPreRelease : Repository where
  Tags := .ok [⟨"v1.2.3", 7⟩, ⟨"v1.2.3-rc.1", 7⟩]
  TagObject := lightweight
  Head := .ok ⟨"main", 7⟩
  Log := fun _ => .ok ⟨[⟨7, "chore: release"⟩], .EOF⟩

/-- A repository whose tags cannot be enumerated and whose head is missing. -/
def repoNoTagsNoHead : Repository where
  Tags := .error (.other "packed-refs not readable")
  TagObject := lightweight
  Head := .error .ErrReferenceNotFound
  Log := fun _ => .error (.other "no head")

end examples

/-! ## Versions: equality and compatibility -/

namespace semver

theorem compareSegment_eq_zero {v o : Nat} (h : compareSegment v o = 0) : v = o := by
  unfold compareSegment at h
  split_ifs at h <;> omega

theorem Version.Equal_components {v o : Version} (h : v.Equal o = true) :
    v.major = o.major ∧ v.minor = o.minor ∧ v.patch = o.patch := by
  have hc : v.Compare o = 0 := of_decide_eq_true h
  unfold Version.Compare at hc
  by_cases h1 : compareSegment v.major o.major = 0
  · by_cases h2 : compareSegment v.minor o.minor = 0
    · by_cases h3 : compareSegment v.patch o.patch = 0
      · exact ⟨compareSegment_eq_zero h1, compareSegment_eq_zero h2, compareSegment_eq_zero h3⟩
      · rw [if_neg (not_not.mpr h1), if_neg (not_not.mpr h2), if_pos h3] at hc
        exact absurd hc h3
    · rw [if_neg (not_not.mpr h1), if_pos h2] at hc
      exact absurd hc h2
  · rw [if_pos h1] at hc
    exact absurd hc h1

end semver

namespace git

open semver

theorem compatible_iff (l r : Version) :
    areCompatibleGranularities l r = true ↔
      l.major = r.major ∧
        (((l.minor = 0 ∧ l.patch = 0) ∨ (r.minor = 0 ∧ r.patch = 0)) ∨
          (l.minor = r.minor ∧ (l.patch = 0 ∨ r.patch = 0)) ∨
          (l.minor = r.minor ∧ l.patch = r.patch)) := by
  by_cases hE : l.Equal r = true
  · have hc := Version.Equal_components hE
    simp only [areCompatibleGranularities, hE, if_true, true_iff]
    exact ⟨hc.1, Or.inr (Or.inr ⟨hc.2.1, hc.2.2⟩)⟩
  · simp only [areCompatibleGranularities, hE]
    by_cases hM : l.major = r.major <;> by_cases hm : l.minor = r.minor <;>
      by_cases hl : l.patch = 0 <;> by_cases hr : r.patch = 0 <;>
      by_cases hl0 : l.minor = 0 <;> by_cases hr0 : r.minor = 0 <;>
      simp [hM, hm, hl, hr, hl0, hr0]

end git

/-! ## Maps -/

theorem mapGet_mapInsert_self {α : Type} (m : List (Hash × α)) (k : Hash) (v : α) :
    mapGet (mapInsert m k v) k = some v := by
  induction m with
  | nil => simp [mapInsert, mapGet]
  | cons p ps ih =>
    obtain ⟨k', v'⟩ := p
    by_cases h : k' = k
    · simp [mapInsert, mapGet, h]
    · simp [mapInsert, mapGet, h, ih]

theorem mapGet_mapInsert_ne {α : Type} (m : List (Hash × α)) (k : Hash) (v : α) (k' : Hash)
    (hne : k' ≠ k) : mapGet (mapInsert m k v) k' = mapGet m k' := by
  induction m with
  | nil => simp [mapInsert, mapGet, Ne.symm hne]
  | cons p ps ih =>
    obtain ⟨k'', v''⟩ := p
    by_cases h : k'' = k
    · subst h
      simp [mapInsert, mapGet, Ne.symm hne]
    · simp [mapInsert, mapGet, h, ih]

theorem mapGet_eq_none_of_not_mem {α : Type} (m : List (Hash × α)) (k : Hash)
    (h : k ∉ m.map Prod.fst) : mapGet m k = none := by
  induction m with
  | nil => rfl
  | cons p ps ih =>
    obtain ⟨k', v'⟩ := p
    simp only [List.map_cons, List.mem_cons, not_or] at h
    simp [mapGet, Ne.symm h.1, ih h.2]

theorem mem_keys_mapInsert {α : Type} (m : List (Hash × α)) (k : Hash) (v : α) (x : Hash) :
    x ∈ (mapInsert m k v).map Prod.fst ↔ x = k ∨ x ∈ m.map Prod.fst := by
  induction m with
  | nil => simp [mapInsert]
  | cons p ps ih =>
    obtain ⟨k', v'⟩ := p
    by_cases h : k' = k
    · subst h
      simp [mapInsert]
    · simp only [mapInsert, h, if_false, List.map_cons, List.mem_cons, ih]
      tauto

theorem nodup_keys_mapInsert {α : Type} (m : List (Hash × α)) (k : Hash) (v : α)
    (h : (m.map Prod.fst).Nodup) : ((mapInsert m k v).map Prod.fst).Nodup := by
  induction m with
  | nil => simp [mapInsert]
  | cons p ps ih =>
    obtain ⟨k', v'⟩ := p
    simp only [List.map_cons, List.nodup_cons] at h
    by_cases hk : k' = k
    · subst hk
      simpa [mapInsert] using h
    · simp only [mapInsert, hk, if_false, List.map_cons, List.nodup_cons]
      refine ⟨?_, ih h.2⟩
      rw [mem_keys_mapInsert]
      rintro (h1 | h1)
      · exact hk h1
      · exact h.1 h1

/-! ## Tag resolution -/

namespace git

open semver

theorem candidatesOf_cons (repository : Repository) (versionRegex : Option Regexp)
    (tag : Reference) (rest : List Reference) (h : Hash) :
    candidatesOf repository versionRegex (tag :: rest) h =
      (candidateFor repository versionRegex h tag).toList ++
        candidatesOf repository versionRegex rest h := by
  unfold candidatesOf
  cases hc : candidateFor repository versionRegex h tag <;> simp [List.filterMap_cons, hc]

theorem forEachTag_groups (repository : Repository) (versionRegex : Option Regexp)
    (m m' : List (Hash × List tagCandidate)) (tag : Reference)
    (hok : forEachTag repository versionRegex m tag = .ok m') (h : Hash) :
    (mapGet m' h).getD [] =
      (mapGet m h).getD [] ++ (candidateFor repository versionRegex h tag).toList := by
  unfold forEachTag at hok
  unfold candidateFor
  cases hc : commitHashOf repository tag with
  | error e => simp [hc] at hok
  | ok ch =>
    simp only [hc] at hok ⊢
    cases hv : NewVersion (versionString versionRegex tag.Name) with
    | none =>
      simp only [hv, Except.ok.injEq] at hok
      subst hok
      simp
    | some version =>
      simp only [hv, Except.ok.injEq] at hok
      subst hok
      by_cases hh : ch = h
      · subst hh
        simp [mapGet_mapInsert_self]
      · simp [mapGet_mapInsert_ne _ _ _ _ (Ne.symm hh), hh]

theorem forEachTag_nodup (repository : Repository) (versionRegex : Option Regexp)
    (m m' : List (Hash × List tagCandidate)) (tag : Reference)
    (hok : forEachTag repository versionRegex m tag = .ok m')
    (hm : (m.map Prod.fst).Nodup) : (m'.map Prod.fst).Nodup := by
  unfold forEachTag at hok
  cases hc : commitHashOf repository tag with
  | error e => simp [hc] at hok
  | ok ch =>
    simp only [hc] at hok
    cases hv : NewVersion (versionString versionRegex tag.Name) with
    | none =>
      simp only [hv, Except.ok.injEq] at hok
      subst hok
      exact hm
    | some version =>
      simp only [hv, Except.ok.injEq] at hok
      subst hok
      exact nodup_keys_mapInsert _ _ _ hm

theorem forEach_groups (repository : Repository) (versionRegex : Option Regexp) :
    ∀ (refs : List Reference) (m m' : List (Hash × List tagCandidate)),
      forEach repository versionRegex m refs = .ok m' →
      ∀ h, (mapGet m' h).getD [] =
        (mapGet m h).getD [] ++ candidatesOf repository versionRegex refs h := by
  intro refs
  induction refs with
  | nil =>
    intro m m' hok h
    simp only [forEach, Except.ok.injEq] at hok
    subst hok
    simp [candidatesOf]
  | cons tag rest ih =>
    intro m m' hok h
    unfold forEach at hok
    cases ht : forEachTag repository versionRegex m tag with
    | error e => simp [ht] at hok
    | ok m1 =>
      simp only [ht] at hok
      rw [ih m1 m' hok h, forEachTag_groups repository versionRegex m m1 tag ht h,
        candidatesOf_cons, List.append_assoc]

theorem forEach_nodup (repository : Repository) (versionRegex : Option Regexp) :
    ∀ (refs : List Reference) (m m' : List (Hash × List tagCandidate)),
      forEach repository versionRegex m refs = .ok m' →
      (m.map Prod.fst).Nodup → (m'.map Prod.fst).Nodup := by
  intro refs
  induction refs with
  | nil =>
    intro m m' hok hm
    simp only [forEach, Except.ok.injEq] at hok
    subst hok
    exact hm
  | cons tag rest ih =>
    intro m m' hok hm
    unfold forEach at hok
    cases ht : forEachTag repository versionRegex m tag with
    | error e => simp [ht] at hok
    | ok m1 =>
      simp only [ht] at hok
      exact ih m1 m' hok (forEachTag_nodup repository versionRegex m m1 tag ht hm)

theorem resolveCommitTags_ok :
    ∀ (groups : List (Hash × List tagCandidate)) (tags tags' : Tags),
      (groups.map Prod.fst).Nodup →
      resolveCommitTags tags groups = (tags', none) →
      ∀ h, mapGet tags' h =
        match mapGet groups h with
        | some candidates => selectMostSpecificTag candidates
        | none => mapGet tags h := by
  intro groups
  induction groups with
  | nil =>
    intro tags tags' _ hok h
    simp only [resolveCommitTags, Prod.mk.injEq, and_true] at hok
    subst hok
    simp [mapGet]
  | cons g rest ih =>
    obtain ⟨k, cs⟩ := g
    intro tags tags' hnd hok h
    simp only [List.map_cons, List.nodup_cons] at hnd
    unfold resolveCommitTags at hok
    by_cases hd : hasDifferentVersions cs = true
    · simp [hd] at hok
    · simp only [hd] at hok
      cases hs : selectMostSpecificTag cs with
      | none => simp [hs] at hok
      | some version =>
        simp only [hs] at hok
        have hrec := ih (mapInsert tags k version) tags' hnd.2 hok h
        by_cases hk : k = h
        · subst hk
          rw [hrec, mapGet_eq_none_of_not_mem rest k hnd.1]
          simp [mapGet, mapGet_mapInsert_self, hs]
        · rw [hrec]
          simp only [mapGet, hk, if_false]
          cases mapGet rest h with
          | none => simp [mapGet_mapInsert_ne _ _ _ _ (Ne.symm hk)]
          | some cs' => rfl

end git

/-! ## Selection of the most specific tag -/

namespace git

open semver

theorem selectLoop_spec :
    ∀ (rest pre mid : List tagCandidate) (best : tagCandidate),
      (∀ x ∈ pre, getTagSpecificity x.originalName < getTagSpecificity best.originalName) →
      (∀ x ∈ mid, getTagSpecificity x.originalName ≤ getTagSpecificity best.originalName) →
      ∃ pre' post',
        pre ++ best :: mid ++ rest =
          pre' ++ selectLoop best (getTagSpecificity best.originalName) rest :: post' ∧
        (∀ x ∈ pre', getTagSpecificity x.originalName <
          getTagSpecificity
            (selectLoop best (getTagSpecificity best.originalName) rest).originalName) ∧
        (∀ x ∈ post', getTagSpecificity x.originalName ≤
          getTagSpecificity
            (selectLoop best (getTagSpecificity best.originalName) rest).originalName) := by
  intro rest
  induction rest with
  | nil =>
    intro pre mid best hpre hmid
    exact ⟨pre, mid, by simp [selectLoop], by simpa [selectLoop] using hpre,
      by simpa [selectLoop] using hmid⟩
  | cons x xs ih =>
    intro pre mid best hpre hmid
    by_cases hx : getTagSpecificity x.originalName > getTagSpecificity best.originalName
    · have hpre' : ∀ y ∈ pre ++ best :: mid,
          getTagSpecificity y.originalName < getTagSpecificity x.originalName := by
        intro y hy
        rcases List.mem_append.mp hy with hy | hy
        · exact lt_trans (hpre y hy) hx
        · rcases List.mem_cons.mp hy with hy | hy
          · subst hy
            exact hx
          · exact lt_of_le_of_lt (hmid y hy) hx
      obtain ⟨pre', post', h1, h2, h3⟩ := ih (pre ++ best :: mid) [] x hpre' (by simp)
      refine ⟨pre', post', ?_, ?_, ?_⟩
      · simp only [selectLoop, hx, if_true]
        rw [← h1]
        simp
      · simpa only [selectLoop, hx, if_true] using h2
      · simpa only [selectLoop, hx, if_true] using h3
    · have hmid' : ∀ y ∈ mid ++ [x],
          getTagSpecificity y.originalName ≤ getTagSpecificity best.originalName := by
        intro y hy
        rcases List.mem_append.mp hy with hy | hy
        · exact hmid y hy
        · simp only [List.mem_singleton] at hy
          subst hy
          exact not_lt.mp hx
      obtain ⟨pre', post', h1, h2, h3⟩ := ih pre (mid ++ [x]) best hpre hmid'
      refine ⟨pre', post', ?_, ?_, ?_⟩
      · simp only [selectLoop, hx, if_false]
        rw [← h1]
        simp
      · simpa only [selectLoop, hx, if_false] using h2
      · simpa only [selectLoop, hx, if_false] using h3

theorem selectMostSpecificTag_cons (first : tagCandidate) (rest : List tagCandidate) :
    selectMostSpecificTag (first :: rest) =
      some (selectLoop first (getTagSpecificity first.originalName) rest).version := by
  cases rest with
  | nil => rfl
  | cons second rest' => rfl

theorem selectMostSpecificTag_first_max (candidates : List tagCandidate)
    (hne : candidates ≠ []) :
    ∃ pre c post, candidates = pre ++ c :: post ∧
      selectMostSpecificTag candidates = some c.version ∧
      (∀ x ∈ pre, getTagSpecificity x.originalName < getTagSpecificity c.originalName) ∧
      (∀ x ∈ post, getTagSpecificity x.originalName ≤ getTagSpecificity c.originalName) := by
  cases candidates with
  | nil => exact absurd rfl hne
  | cons first rest =>
    obtain ⟨pre', post', h1, h2, h3⟩ := selectLoop_spec rest [] [] first (by simp) (by simp)
    exact ⟨pre', _, post', by simpa using h1, selectMostSpecificTag_cons first rest, h2, h3⟩

theorem stored_version_of_success (repository : Repository)
    (tagsFilterPathRegex versionRegex : Option Regexp) (refs : List Reference) (tags : Tags)
    (h : Hash) (hrefs : repository.Tags = .ok refs)
    (hok : GetAllSemVerTags repository tagsFilterPathRegex versionRegex = (tags, none))
    (hne : candidatesOf repository versionRegex
      (refs.filter (tagsFilter tagsFilterPathRegex)) h ≠ []) :
    mapGet tags h = selectMostSpecificTag (candidatesOf repository versionRegex
      (refs.filter (tagsFilter tagsFilterPathRegex)) h) := by
  unfold GetAllSemVerTags at hok
  simp only [hrefs] at hok
  cases hf : forEach repository versionRegex []
      (refs.filter (tagsFilter tagsFilterPathRegex)) with
  | error e => simp [hf] at hok
  | ok groups =>
    simp only [hf] at hok
    have hnd := forEach_nodup repository versionRegex _ [] groups hf (by simp)
    have hg := forEach_groups repository versionRegex _ [] groups hf h
    simp only [mapGet, Option.getD_none, List.nil_append] at hg
    rw [resolveCommitTags_ok groups [] tags hnd hok h]
    cases hm : mapGet groups h with
    | none =>
      rw [hm] at hg
      exact absurd hg.symm hne
    | some cs =>
      rw [hm] at hg
      simp only [Option.getD_some] at hg
      rw [hg]

end git

/-! ## Tags of a single commit, tags that do not parse -/

namespace git

open semver

theorem forEach_withTags (repository : Repository) (tags : List Reference)
    (versionRegex : Option Regexp) :
    ∀ (refs : List Reference) (m : List (Hash × List tagCandidate)),
      forEach (withTags repository tags) versionRegex m refs =
        forEach repository versionRegex m refs := by
  intro refs
  induction refs with
  | nil => intro m; rfl
  | cons tag rest ih =>
    intro m
    have ht : forEachTag (withTags repository tags) versionRegex m tag =
        forEachTag repository versionRegex m tag := rfl
    unfold forEach
    rw [ht]
    cases forEachTag repository versionRegex m tag with
    | error e => rfl
    | ok m1 => exact ih m1

theorem forEach_single (repository : Repository) (versionRegex : Option Regexp) (h : Hash) :
    ∀ (refs : List Reference) (cs : List tagCandidate),
      (∀ tag ∈ refs, commitHashOf repository tag = .ok h) →
      forEach repository versionRegex (if cs = [] then [] else [(h, cs)]) refs =
        .ok (if cs ++ candidatesOf repository versionRegex refs h = [] then []
          else [(h, cs ++ candidatesOf repository versionRegex refs h)]) := by
  intro refs
  induction refs with
  | nil =>
    intro cs _
    simp [forEach, candidatesOf]
  | cons tag rest ih =>
    intro cs hall
    have hc : commitHashOf repository tag = .ok h := hall tag (List.mem_cons_self _ _)
    have hrest : ∀ t ∈ rest, commitHashOf repository t = .ok h :=
      fun t ht => hall t (List.mem_cons_of_mem _ ht)
    rw [candidatesOf_cons]
    unfold forEach forEachTag candidateFor
    simp only [hc, if_true]
    cases hv : NewVersion (versionString versionRegex tag.Name) with
    | none =>
      simpa using ih cs hrest
    | some version =>
      have hm : mapInsert (if cs = [] then [] else [(h, cs)]) h
          ((mapGet (if cs = [] then [] else [(h, cs)]) h).getD [] ++ [⟨tag.Name, version⟩]) =
          (if cs ++ [(⟨tag.Name, version⟩ : tagCandidate)] = [] then []
            else [(h, cs ++ [⟨tag.Name, version⟩])]) := by
        by_cases hcs : cs = []
        · simp [hcs, mapInsert, mapGet]
        · simp [hcs, mapInsert, mapGet]
      simp only [Option.map_some', Option.toList_some]
      rw [hm, ih (cs ++ [(⟨tag.Name, version⟩ : tagCandidate)]) hrest]
      simp

theorem hasDifferentVersions_of_equal (candidates : List tagCandidate)
    (heq : ∀ a ∈ candidates, ∀ b ∈ candidates, a.version.Equal b.version = true) :
    hasDifferentVersions candidates = false := by
  cases candidates with
  | nil => rfl
  | cons first rest =>
    unfold hasDifferentVersions
    split_ifs
    · rw [Bool.eq_false_iff]
      intro hany
      obtain ⟨c, hc, hbad⟩ := List.any_eq_true.mp hany
      have he := heq first (List.mem_cons_self _ _) c (List.mem_cons_of_mem _ hc)
      simp [areCompatibleGranularities, he] at hbad
    · rfl

theorem forEach_filter_parses (repository : Repository) (versionRegex : Option Regexp) :
    ∀ (refs : List Reference) (m : List (Hash × List tagCandidate)),
      (∀ tag ∈ refs, parses versionRegex tag = false →
        ∃ h, commitHashOf repository tag = .ok h) →
      forEach repository versionRegex m (refs.filter (parses versionRegex)) =
        forEach repository versionRegex m refs := by
  intro refs
  induction refs with
  | nil => intro m _; rfl
  | cons tag rest ih =>
    intro m hall
    have hrest : ∀ t ∈ rest, parses versionRegex t = false →
        ∃ h, commitHashOf repository t = .ok h :=
      fun t ht => hall t (List.mem_cons_of_mem _ ht)
    by_cases hp : parses versionRegex tag = true
    · rw [List.filter_cons_of_pos hp]
      unfold forEach
      cases forEachTag repository versionRegex m tag with
      | error e => rfl
      | ok m1 => exact ih m1 hrest
    · have hp' : parses versionRegex tag = false := by simpa using hp
      obtain ⟨h, hh⟩ := hall tag (List.mem_cons_self _ _) hp'
      have hv : NewVersion (versionString versionRegex tag.Name) = none := by
        simpa [parses] using hp'
      rw [List.filter_cons_of_neg hp, ih m hrest]
      conv_rhs => unfold forEach
      simp [forEachTag, hh, hv]

end git

/-! ## Decimal numerals and the parsing of tag names -/

namespace semver

theorem digitChar_spec (d : Nat) (h : d < 10) :
    (Nat.digitChar d).isDigit = true ∧ (Nat.digitChar d).toNat - 48 = d := by
  interval_cases d <;> decide

theorem digitsValue_append (l : List Char) (c : Char) :
    digitsValue (l ++ [c]) = 10 * digitsValue l + (c.toNat - 48) := by
  simp [digitsValue, List.foldl_append]

theorem toDigitsCore_spec :
    ∀ (fuel n : Nat) (ds : List Char), n < fuel →
      ∃ l, Nat.toDigitsCore 10 fuel n ds = l ++ ds ∧ l ≠ [] ∧
        (∀ c ∈ l, c.isDigit = true) ∧ digitsValue l = n := by
  intro fuel
  induction fuel with
  | zero => intro n ds h; omega
  | succ f ih =>
    intro n ds h
    have hd := digitChar_spec (n % 10) (Nat.mod_lt _ (by decide))
    by_cases h0 : n / 10 = 0
    · refine ⟨[Nat.digitChar (n % 10)], by simp [Nat.toDigitsCore, h0], by simp, ?_, ?_⟩
      · intro c hc
        simp only [List.mem_singleton] at hc
        rw [hc]
        exact hd.1
      · have := digitsValue_append [] (Nat.digitChar (n % 10))
        simp only [List.nil_append] at this
        rw [this, hd.2]
        simp only [digitsValue, List.foldl_nil]
        omega
    · obtain ⟨l, hl, -, hall, hval⟩ :=
        ih (n / 10) (Nat.digitChar (n % 10) :: ds) (by omega)
      refine ⟨l ++ [Nat.digitChar (n % 10)], by simp [Nat.toDigitsCore, h0, hl], by simp, ?_, ?_⟩
      · intro c hc
        rcases List.mem_append.mp hc with hc | hc
        · exact hall c hc
        · simp only [List.mem_singleton] at hc
          rw [hc]
          exact hd.1
      · rw [digitsValue_append, hval, hd.2]
        omega

theorem toDigits_spec (n : Nat) :
    Nat.toDigits 10 n ≠ [] ∧ (∀ c ∈ Nat.toDigits 10 n, c.isDigit = true) ∧
      digitsValue (Nat.toDigits 10 n) = n := by
  obtain ⟨l, hl, hne, hall, hval⟩ := toDigitsCore_spec (n + 1) n [] (by omega)
  have : Nat.toDigits 10 n = l := by simpa [Nat.toDigits] using hl
  rw [this]
  exact ⟨hne, hall, hval⟩

theorem parseUint_toDigits (bits n : Nat) (h : n < 2 ^ bits) :
    parseUint bits (Nat.toDigits 10 n) = some n := by
  obtain ⟨hne, hall, hval⟩ := toDigits_spec n
  unfold parseUint
  have h1 : (Nat.toDigits 10 n).isEmpty = false := by
    cases hl : Nat.toDigits 10 n with
    | nil => exact absurd hl hne
    | cons a b => rfl
  have h2 : (Nat.toDigits 10 n).all Char.isDigit = true := by
    rw [List.all_eq_true]
    exact hall
  simp [h1, h2, hval, h]

theorem span_digits_dot (l rest : List Char) (hl : ∀ c ∈ l, c.isDigit = true) :
    (l ++ '.' :: rest).span Char.isDigit = (l, '.' :: rest) := by
  rw [List.span_eq_take_drop, List.takeWhile_append_of_pos hl, List.dropWhile_append_of_pos hl]
  simp [List.takeWhile_cons, List.dropWhile_cons, show Char.isDigit '.' = false by decide]

theorem span_digits_end (l : List Char) (hl : ∀ c ∈ l, c.isDigit = true) :
    l.span Char.isDigit = (l, []) := by
  have := List.span_eq_take_drop Char.isDigit (l ++ [])
  rw [List.takeWhile_append_of_pos hl, List.dropWhile_append_of_pos hl] at this
  simpa using this

theorem isEmpty_toDigits (n : Nat) : (Nat.toDigits 10 n).isEmpty = false := by
  cases hl : Nat.toDigits 10 n with
  | nil => exact absurd hl (toDigits_spec n).1
  | cons a b => rfl

theorem optDotDigits_mid (n : Nat) (rest : List Char) :
    optDotDigits ('.' :: (Nat.toDigits 10 n ++ '.' :: rest)) =
      (Nat.toDigits 10 n, '.' :: rest) := by
  simp only [optDotDigits, span_digits_dot _ rest (toDigits_spec n).2.1, isEmpty_toDigits]
  rfl

theorem optDotDigits_last (n : Nat) :
    optDotDigits ('.' :: Nat.toDigits 10 n) = (Nat.toDigits 10 n, []) := by
  simp only [optDotDigits, span_digits_end _ (toDigits_spec n).2.1, isEmpty_toDigits]
  rfl

theorem optDotDigits_nil : optDotDigits [] = ([], []) := rfl

theorem trimV_v (cs : List Char) : trimV ('v' :: cs) = cs := rfl

theorem majorTag_toList (N : Nat) : (majorTag N).toList = 'v' :: Nat.toDigits 10 N := by
  simp only [majorTag, String.toList, String.data_append]
  rfl

theorem minorTag_toList (N M : Nat) :
    (minorTag N M).toList = 'v' :: (Nat.toDigits 10 N ++ '.' :: Nat.toDigits 10 M) := by
  simp only [minorTag, String.toList, String.data_append, List.append_assoc]
  rfl

theorem fullTag_toList (N M P : Nat) :
    (fullTag N M P).toList =
      'v' :: (Nat.toDigits 10 N ++ '.' :: (Nat.toDigits 10 M ++ '.' :: Nat.toDigits 10 P)) := by
  simp only [fullTag, String.toList, String.data_append, List.append_assoc]
  rfl

theorem NewVersion_fullTag (N M P : Nat) (hN : N < 2 ^ 63) (hM : M < 2 ^ 63) (hP : P < 2 ^ 63) :
    NewVersion (fullTag N M P) = some ⟨N, M, P, "", "", fullTag N M P⟩ := by
  unfold NewVersion
  simp only [fullTag_toList, trimV_v, span_digits_dot _ _ (toDigits_spec N).2.1, optDotDigits_mid,
    optDotDigits_last, isEmpty_toDigits, parseTail, parseSegment,
    parseUint_toDigits 63 _ hN, parseUint_toDigits 63 _ hM, parseUint_toDigits 63 _ hP]
  rfl

theorem NewVersion_minorTag (N M : Nat) (hN : N < 2 ^ 63) (hM : M < 2 ^ 63) :
    NewVersion (minorTag N M) = some ⟨N, M, 0, "", "", minorTag N M⟩ := by
  unfold NewVersion
  simp only [minorTag_toList, trimV_v, span_digits_dot _ _ (toDigits_spec N).2.1, optDotDigits_last,
    optDotDigits_nil, isEmpty_toDigits, parseTail, parseSegment,
    parseUint_toDigits 63 _ hN, parseUint_toDigits 63 _ hM]
  rfl

theorem NewVersion_majorTag (N : Nat) (hN : N < 2 ^ 63) :
    NewVersion (majorTag N) = some ⟨N, 0, 0, "", "", majorTag N⟩ := by
  unfold NewVersion
  simp only [majorTag_toList, trimV_v, span_digits_end _ (toDigits_spec N).2.1, optDotDigits_nil,
    isEmpty_toDigits, parseTail, parseSegment,
    parseUint_toDigits 63 _ hN]
  rfl

theorem count_dot_toDigits (n : Nat) : (Nat.toDigits 10 n).count '.' = 0 := by
  rw [List.count_eq_zero]
  intro h
  have := (toDigits_spec n).2.1 _ h
  exact absurd this (by decide)

theorem plainTag_toList (N M P : Nat) :
    (plainTag N M P).toList =
      Nat.toDigits 10 N ++ '.' :: (Nat.toDigits 10 M ++ '.' :: Nat.toDigits 10 P) := by
  simp only [plainTag, String.toList, String.data_append, List.append_assoc]
  rfl

theorem trimV_toDigits (n : Nat) (rest : List Char) :
    trimV (Nat.toDigits 10 n ++ rest) = Nat.toDigits 10 n ++ rest := by
  obtain ⟨hne, hall, -⟩ := toDigits_spec n
  cases hl : Nat.toDigits 10 n with
  | nil => exact absurd hl hne
  | cons a b =>
    have ha : a.isDigit = true := hall a (by rw [hl]; exact List.mem_cons_self _ _)
    have hav : a ≠ 'v' := by
      intro h
      rw [h] at ha
      exact absurd ha (by decide)
    simp only [List.cons_append, trimV]
    split
    · rename_i r heq
      simp only [List.cons.injEq] at heq
      exact absurd heq.1 hav
    · rfl

theorem NewVersion_plainTag (N M P : Nat) (hN : N < 2 ^ 63) (hM : M < 2 ^ 63)
    (hP : P < 2 ^ 63) :
    NewVersion (plainTag N M P) = some ⟨N, M, P, "", "", plainTag N M P⟩ := by
  unfold NewVersion
  simp only [plainTag_toList, trimV_toDigits, span_digits_dot _ _ (toDigits_spec N).2.1,
    optDotDigits_mid, optDotDigits_last, isEmpty_toDigits, parseTail, parseSegment,
    parseUint_toDigits 63 _ hN, parseUint_toDigits 63 _ hM, parseUint_toDigits 63 _ hP]
  rfl

end semver

namespace git

open semver

theorem getTagSpecificity_majorTag (N : Nat) : getTagSpecificity (majorTag N) = 0 := by
  simp only [getTagSpecificity, majorTag_toList, trimV_v]
  exact count_dot_toDigits N

theorem getTagSpecificity_minorTag (N M : Nat) : getTagSpecificity (minorTag N M) = 1 := by
  simp only [getTagSpecificity, minorTag_toList, trimV_v]
  simp [count_dot_toDigits, List.count_cons]

theorem getTagSpecificity_fullTag (N M P : Nat) : getTagSpecificity (fullTag N M P) = 2 := by
  simp only [getTagSpecificity, fullTag_toList, trimV_v]
  simp [count_dot_toDigits, List.count_cons]

theorem NewVersion_writtenInFull (name : String) (N M P : Nat)
    (hN : N < 2 ^ 63) (hM : M < 2 ^ 63) (hP : P < 2 ^ 63)
    (hw : name = fullTag N M P ∨ name = plainTag N M P) :
    NewVersion name = some ⟨N, M, P, "", "", name⟩ := by
  rcases hw with rfl | rfl
  · exact NewVersion_fullTag N M P hN hM hP
  · exact NewVersion_plainTag N M P hN hM hP

theorem hasDifferentVersions_of_compatible (candidates : List tagCandidate)
    (hc : ∀ a ∈ candidates, ∀ b ∈ candidates,
      areCompatibleGranularities a.version b.version = true) :
    hasDifferentVersions candidates = false := by
  cases candidates with
  | nil => rfl
  | cons first rest =>
    unfold hasDifferentVersions
    split_ifs
    · rw [Bool.eq_false_iff]
      intro hany
      obtain ⟨c, hmem, hbad⟩ := List.any_eq_true.mp hany
      have he := hc first (List.mem_cons_self _ _) c (List.mem_cons_of_mem _ hmem)
      simp [he] at hbad
    · rfl

theorem filter_tagsFilter_none (refs : List Reference) :
    refs.filter (tagsFilter none) = refs := by
  rw [List.filter_eq_self]
  intro a _
  rfl

end git

/-! ## The history scan -/

namespace git

open semver conventionalcommits

theorem scanLoop_boundary (tags : Tags) (classifier : TypeClassifier) (err : LibError)
    (c : Commit) (rest : List Commit) (version : Version)
    (hc : mapGet tags c.Hash = some version) :
    ∀ (pre : List Commit) (acc : List CommitType),
      (∀ p ∈ pre, mapGet tags p.Hash = none) →
      scanLoop tags classifier acc err (pre ++ c :: rest) =
        (some version, acc ++ pre.map (commitTypeOf classifier), none) := by
  intro pre
  induction pre with
  | nil =>
    intro acc _
    simp [scanLoop, hc]
  | cons p ps ih =>
    intro acc hpre
    have hp : mapGet tags p.Hash = none := hpre p (List.mem_cons_self _ _)
    have hps : ∀ q ∈ ps, mapGet tags q.Hash = none :=
      fun q hq => hpre q (List.mem_cons_of_mem _ hq)
    simp [scanLoop, hp, ih _ hps]

theorem scanLoop_exhausted (tags : Tags) (classifier : TypeClassifier) (err : LibError) :
    ∀ (commits : List Commit) (acc : List CommitType),
      (∀ p ∈ commits, mapGet tags p.Hash = none) →
      scanLoop tags classifier acc err commits =
        (none, acc ++ commits.map (commitTypeOf classifier), some err) := by
  intro commits
  induction commits with
  | nil =>
    intro acc _
    simp [scanLoop]
  | cons p ps ih =>
    intro acc hpre
    have hp : mapGet tags p.Hash = none := hpre p (List.mem_cons_self _ _)
    have hps : ∀ q ∈ ps, mapGet tags q.Hash = none :=
      fun q hq => hpre q (List.mem_cons_of_mem _ hq)
    simp [scanLoop, hp, ih _ hps]

theorem mustParse_zero : MustParse "0.0.0" = some ⟨0, 0, 0, "", "", "0.0.0"⟩ := by
  decide

end git

/-! ## Maps: membership -/

theorem mapGet_isSome_iff {α : Type} (m : List (Hash × α)) (k : Hash) :
    (mapGet m k).isSome = true ↔ k ∈ m.map Prod.fst := by
  induction m with
  | nil => simp [mapGet]
  | cons p ps ih =>
    obtain ⟨k', v'⟩ := p
    by_cases h : k' = k
    · simp [mapGet, h]
    · simp only [mapGet, h, if_false, ih, List.map_cons, List.mem_cons]
      constructor
      · exact Or.inr
      · rintro (h1 | h1)
        · exact absurd h1.symm h
        · exact h1

theorem mapGet_of_mem {α : Type} (m : List (Hash × α)) (k : Hash) (v : α)
    (hnd : (m.map Prod.fst).Nodup) (hmem : (k, v) ∈ m) : mapGet m k = some v := by
  induction m with
  | nil => simp at hmem
  | cons p ps ih =>
    obtain ⟨k', v'⟩ := p
    simp only [List.map_cons, List.nodup_cons] at hnd
    rcases List.mem_cons.mp hmem with h1 | h1
    · simp only [Prod.mk.injEq] at h1
      simp [mapGet, h1.1, h1.2]
    · have hk : k' ≠ k := by
        intro hk
        apply hnd.1
        rw [hk]
        exact List.mem_map.mpr ⟨(k, v), h1, rfl⟩
      simp [mapGet, hk, ih hnd.2 h1]

theorem mem_of_mapGet {α : Type} (m : List (Hash × α)) (k : Hash) (v : α)
    (hget : mapGet m k = some v) : (k, v) ∈ m := by
  induction m with
  | nil => simp [mapGet] at hget
  | cons p ps ih =>
    obtain ⟨k', v'⟩ := p
    by_cases hk : k' = k
    · simp only [mapGet, hk, if_true, Option.some.injEq] at hget
      rw [hk, hget]
      exact List.mem_cons_self _ _
    · simp only [mapGet, hk, if_false] at hget
      exact List.mem_cons_of_mem _ (ih hget)

/-! ## The tag filter, the version string, the groups of a resolution -/

namespace git

open semver

theorem filter_tagsFilter_some (re : Regexp) (refs : List Reference) :
    refs.filter (tagsFilter (some re)) = refs.filter (fun tag => re.MatchString tag.Name) :=
  rfl

theorem candidate_name_of_mem (repository : Repository) (versionRegex : Option Regexp)
    (refs : List Reference) (h : Hash) (c : tagCandidate)
    (hc : c ∈ candidatesOf repository versionRegex refs h) :
    ∃ tag ∈ refs, c.originalName = tag.Name ∧ commitHashOf repository tag = .ok h ∧
      NewVersion (versionString versionRegex tag.Name) = some c.version := by
  unfold candidatesOf at hc
  obtain ⟨tag, htag, hcand⟩ := List.mem_filterMap.mp hc
  refine ⟨tag, htag, ?_⟩
  unfold candidateFor at hcand
  cases hh : commitHashOf repository tag with
  | error e => simp [hh] at hcand
  | ok k =>
    simp only [hh] at hcand
    by_cases hk : k = h
    · subst hk
      simp only [if_true] at hcand
      cases hv : NewVersion (versionString versionRegex tag.Name) with
      | none => simp [hv] at hcand
      | some v =>
        simp only [hv, Option.map_some', Option.some.injEq] at hcand
        subst hcand
        exact ⟨rfl, rfl, rfl⟩
    · simp [hk] at hcand

theorem candidate_mem (repository : Repository) (versionRegex : Option Regexp)
    (refs : List Reference) (tag : Reference) (c : Hash) (version : Version)
    (htag : tag ∈ refs) (hc : commitHashOf repository tag = .ok c)
    (hv : NewVersion (versionString versionRegex tag.Name) = some version) :
    (⟨tag.Name, version⟩ : tagCandidate) ∈ candidatesOf repository versionRegex refs c := by
  unfold candidatesOf
  exact List.mem_filterMap.mpr ⟨tag, htag, by simp [candidateFor, hc, hv]⟩

theorem single_tag_outcome (repository : Repository) (versionRegex : Option Regexp)
    (tag : Reference) (h : Hash) (hrefs : repository.Tags = .ok [tag])
    (hc : commitHashOf repository tag = .ok h) :
    GetAllSemVerTags repository none versionRegex =
      match NewVersion (versionString versionRegex tag.Name) with
      | some version => ([(h, version)], none)
      | none => ([], none) := by
  unfold GetAllSemVerTags
  simp only [hrefs, filter_tagsFilter_none, forEach, forEachTag, hc]
  cases NewVersion (versionString versionRegex tag.Name) with
  | none => simp [resolveCommitTags]
  | some version =>
    simp [resolveCommitTags, mapGet, mapInsert, hasDifferentVersions, selectMostSpecificTag]

theorem forEachTag_nonempty (repository : Repository) (versionRegex : Option Regexp)
    (m m' : List (Hash × List tagCandidate)) (tag : Reference)
    (hok : forEachTag repository versionRegex m tag = .ok m')
    (hm : ∀ k, mapGet m k ≠ some []) : ∀ k, mapGet m' k ≠ some [] := by
  unfold forEachTag at hok
  cases hc : commitHashOf repository tag with
  | error e => simp [hc] at hok
  | ok ch =>
    simp only [hc] at hok
    cases hv : NewVersion (versionString versionRegex tag.Name) with
    | none =>
      simp only [hv, Except.ok.injEq] at hok
      subst hok
      exact hm
    | some version =>
      simp only [hv, Except.ok.injEq] at hok
      subst hok
      intro k
      by_cases hk : k = ch
      · subst hk
        simp [mapGet_mapInsert_self]
      · rw [mapGet_mapInsert_ne _ _ _ _ hk]
        exact hm k

theorem forEach_nonempty (repository : Repository) (versionRegex : Option Regexp) :
    ∀ (refs : List Reference) (m m' : List (Hash × List tagCandidate)),
      forEach repository versionRegex m refs = .ok m' →
      (∀ k, mapGet m k ≠ some []) → ∀ k, mapGet m' k ≠ some [] := by
  intro refs
  induction refs with
  | nil =>
    intro m m' hok hm
    simp only [forEach, Except.ok.injEq] at hok
    subst hok
    exact hm
  | cons tag rest ih =>
    intro m m' hok hm
    unfold forEach at hok
    cases ht : forEachTag repository versionRegex m tag with
    | error e => simp [ht] at hok
    | ok m1 =>
      simp only [ht] at hok
      exact ih m1 m' hok (forEachTag_nonempty repository versionRegex m m1 tag ht hm)

theorem forEach_error (repository : Repository) (versionRegex : Option Regexp) :
    ∀ (pre : List Reference) (m : List (Hash × List tagCandidate)) (t : Reference)
      (post : List Reference) (e : LibError),
      (∀ p ∈ pre, ∃ c, commitHashOf repository p = .ok c) →
      commitHashOf repository t = .error e →
      forEach repository versionRegex m (pre ++ t :: post) = .error e := by
  intro pre
  induction pre with
  | nil =>
    intro m t post e _ ht
    simp [forEach, forEachTag, ht]
  | cons p ps ih =>
    intro m t post e hpre ht
    obtain ⟨c, hc⟩ := hpre p (List.mem_cons_self _ _)
    have hps : ∀ q ∈ ps, ∃ c, commitHashOf repository q = .ok c :=
      fun q hq => hpre q (List.mem_cons_of_mem _ hq)
    simp only [List.cons_append, forEach, forEachTag, hc]
    cases NewVersion (versionString versionRegex p.Name) with
    | none => exact ih m t post e hps ht
    | some version => exact ih _ t post e hps ht

theorem forEach_ok (repository : Repository) (versionRegex : Option Regexp) :
    ∀ (refs : List Reference) (m : List (Hash × List tagCandidate)),
      (∀ tag ∈ refs, ∃ c, commitHashOf repository tag = .ok c) →
      ∃ m', forEach repository versionRegex m refs = .ok m' := by
  intro refs
  induction refs with
  | nil =>
    intro m _
    exact ⟨m, rfl⟩
  | cons tag rest ih =>
    intro m hall
    obtain ⟨c, hc⟩ := hall tag (List.mem_cons_self _ _)
    have hrest : ∀ t ∈ rest, ∃ c, commitHashOf repository t = .ok c :=
      fun t ht => hall t (List.mem_cons_of_mem _ ht)
    simp only [forEach, forEachTag, hc]
    cases NewVersion (versionString versionRegex tag.Name) with
    | none => exact ih m hrest
    | some version => exact ih _ hrest

theorem resolveCommitTags_nodup :
    ∀ (groups : List (Hash × List tagCandidate)) (tags tags' : Tags),
      (tags.map Prod.fst).Nodup → resolveCommitTags tags groups = (tags', none) →
      (tags'.map Prod.fst).Nodup := by
  intro groups
  induction groups with
  | nil =>
    intro tags tags' hnd hok
    simp only [resolveCommitTags, Prod.mk.injEq, and_true] at hok
    subst hok
    exact hnd
  | cons g rest ih =>
    obtain ⟨k, cs⟩ := g
    intro tags tags' hnd hok
    unfold resolveCommitTags at hok
    by_cases hd : hasDifferentVersions cs = true
    · simp [hd] at hok
    · simp only [hd] at hok
      cases hs : selectMostSpecificTag cs with
      | none => simp [hs] at hok
      | some version =>
        simp only [hs] at hok
        exact ih _ tags' (nodup_keys_mapInsert tags k version hnd) hok

theorem resolveCommitTags_conflict :
    ∀ (groups : List (Hash × List tagCandidate)) (tags tags' : Tags) (h : Hash),
      resolveCommitTags tags groups = (tags', some (.multipleSemver h)) →
      tags' = [] ∧ ∃ cs, (h, cs) ∈ groups ∧ hasDifferentVersions cs = true := by
  intro groups
  induction groups with
  | nil =>
    intro tags tags' h hok
    simp [resolveCommitTags] at hok
  | cons g rest ih =>
    obtain ⟨k, cs⟩ := g
    intro tags tags' h hok
    unfold resolveCommitTags at hok
    by_cases hd : hasDifferentVersions cs = true
    · simp only [hd, if_true, Prod.mk.injEq, Option.some.injEq, Error.multipleSemver.injEq] at hok
      obtain ⟨h1, h2⟩ := hok
      subst h2
      exact ⟨h1.symm, cs, List.mem_cons_self _ _, hd⟩
    · simp only [hd] at hok
      cases hs : selectMostSpecificTag cs with
      | none => simp [hs] at hok
      | some version =>
        simp only [hs] at hok
        obtain ⟨h1, cs', h2, h3⟩ := ih _ tags' h hok
        exact ⟨h1, cs', List.mem_cons_of_mem _ h2, h3⟩

theorem hasDifferentVersions_spec (candidates : List tagCandidate)
    (hd : hasDifferentVersions candidates = true) :
    2 ≤ candidates.length ∧ ∃ first rest, candidates = first :: rest ∧
      ∃ c ∈ rest, areCompatibleGranularities first.version c.version = false := by
  cases candidates with
  | nil => simp [hasDifferentVersions] at hd
  | cons first rest =>
    unfold hasDifferentVersions at hd
    split_ifs at hd with hlen
    · obtain ⟨c, hc, hbad⟩ := List.any_eq_true.mp hd
      refine ⟨hlen, first, rest, rfl, c, hc, ?_⟩
      simpa using hbad

theorem groups_of_outcome (repository : Repository)
    (tagsFilterPathRegex versionRegex : Option Regexp) (refs : List Reference)
    (tags : Tags) (err : Option Error) (hrefs : repository.Tags = .ok refs)
    (hout : GetAllSemVerTags repository tagsFilterPathRegex versionRegex = (tags, err))
    (hnl : ∀ e, err ≠ some (.lib e)) :
    ∃ groups, forEach repository versionRegex []
        (refs.filter (tagsFilter tagsFilterPathRegex)) = .ok groups ∧
      resolveCommitTags [] groups = (tags, err) ∧
      (groups.map Prod.fst).Nodup ∧
      (∀ h, mapGet groups h ≠ some []) ∧
      (∀ h, (mapGet groups h).getD [] = candidatesOf repository versionRegex
        (refs.filter (tagsFilter tagsFilterPathRegex)) h) := by
  unfold GetAllSemVerTags at hout
  simp only [hrefs] at hout
  cases hf : forEach repository versionRegex []
      (refs.filter (tagsFilter tagsFilterPathRegex)) with
  | error e =>
    simp only [hf, Prod.mk.injEq] at hout
    exact absurd hout.2.symm (hnl e)
  | ok groups =>
    simp only [hf] at hout
    refine ⟨groups, rfl, hout, forEach_nodup _ _ _ [] groups hf (by simp),
      forEach_nonempty _ _ _ [] groups hf (by simp [mapGet]), ?_⟩
    intro h
    simpa [mapGet] using forEach_groups repository versionRegex _ [] groups hf h

theorem entry_iff_candidates (repository : Repository)
    (tagsFilterPathRegex versionRegex : Option Regexp) (refs : List Reference) (tags : Tags)
    (hrefs : repository.Tags = .ok refs)
    (hok : GetAllSemVerTags repository tagsFilterPathRegex versionRegex = (tags, none))
    (h : Hash) :
    (tags.map Prod.fst).Nodup ∧
    (candidatesOf repository versionRegex
        (refs.filter (tagsFilter tagsFilterPathRegex)) h ≠ [] →
      (mapGet tags h).isSome = true) ∧
    (candidatesOf repository versionRegex
        (refs.filter (tagsFilter tagsFilterPathRegex)) h = [] →
      mapGet tags h = none) := by
  obtain ⟨groups, -, hres, hnd, hne, hg⟩ :=
    groups_of_outcome repository tagsFilterPathRegex versionRegex refs tags none hrefs hok
      (by simp)
  have hget := resolveCommitTags_ok groups [] tags hnd hres h
  refine ⟨resolveCommitTags_nodup groups [] tags (by simp) hres, ?_, ?_⟩
  · intro hc
    cases hm : mapGet groups h with
    | none =>
      have := hg h
      rw [hm] at this
      exact absurd this.symm hc
    | some cs =>
      rw [hm] at hget
      simp only at hget
      cases cs with
      | nil => exact absurd hm (hne h)
      | cons first rest =>
        rw [hget, selectMostSpecificTag_cons]
        rfl
  · intro hc
    cases hm : mapGet groups h with
    | none =>
      rw [hm] at hget
      simpa [mapGet] using hget
    | some cs =>
      have := hg h
      rw [hm, hc] at this
      simp only [Option.getD_some] at this
      rw [this] at hm
      exact absurd hm (hne h)

end git

/-! ## The outcome of the scan -/

namespace git

open semver conventionalcommits

theorem scanLoop_eq (tags : Tags) (classifier : TypeClassifier) (err : LibError) :
    ∀ (commits : List Commit) (acc : List CommitType),
      scanLoop tags classifier acc err commits =
        match boundaryOf tags commits with
        | some c =>
          (mapGet tags c.Hash,
            acc ++ (beforeBoundary tags commits).map (commitTypeOf classifier), none)
        | none =>
          (none, acc ++ (beforeBoundary tags commits).map (commitTypeOf classifier),
            some err) := by
  intro commits
  induction commits with
  | nil =>
    intro acc
    simp [scanLoop, boundaryOf, beforeBoundary]
  | cons c cs ih =>
    intro acc
    cases hc : mapGet tags c.Hash with
    | some version =>
      simp [scanLoop, boundaryOf, beforeBoundary, hc]
    | none =>
      have h1 : boundaryOf tags (c :: cs) = boundaryOf tags cs := by
        simp [boundaryOf, hc]
      have h2 : beforeBoundary tags (c :: cs) = c :: beforeBoundary tags cs := by
        simp [beforeBoundary, hc]
      simp only [scanLoop, hc, ih, h1, h2]
      cases boundaryOf tags cs <;> simp

theorem boundaryOf_isSome (tags : Tags) (commits : List Commit) (c : Commit)
    (h : boundaryOf tags commits = some c) : (mapGet tags c.Hash).isSome = true := by
  unfold boundaryOf at h
  have hmem := List.head?_eq_some_iff.mp h
  obtain ⟨tl, htl⟩ := hmem
  have := List.head_dropWhile_not (fun c => (mapGet tags c.Hash).isNone) commits
    (by rw [htl]; simp)
  simp only [htl, List.head_cons] at this
  cases hm : mapGet tags c.Hash with
  | none => simp [hm] at this
  | some v => rfl

theorem untagged_boundary (tags : Tags) (commits : List Commit)
    (h : ∀ c ∈ commits, mapGet tags c.Hash = none) :
    boundaryOf tags commits = none ∧ beforeBoundary tags commits = commits := by
  have hall : ∀ c ∈ commits, (fun c : Commit => (mapGet tags c.Hash).isNone) c = true := by
    intro c hc
    simp [h c hc]
  constructor
  · unfold boundaryOf
    rw [List.dropWhile_eq_nil_iff.mpr hall]
    rfl
  · unfold beforeBoundary
    exact List.takeWhile_eq_self_iff.mpr hall

theorem scan_outcome (repository : Repository) (classifier : TypeClassifier)
    (commitsFilterPathRegex tagsFilterRegex versionRegex : Option Regexp)
    (tags : Tags) (head : Reference) (commits : List Commit) (err : LibError)
    (htags : GetAllSemVerTags repository tagsFilterRegex versionRegex = (tags, none))
    (hhead : repository.Head = .ok head)
    (hlog : repository.Log ⟨head.Hash, pathFilter commitsFilterPathRegex⟩ =
      .ok ⟨commits, err⟩) :
    GetConventionalCommitTypesSinceLastRelease repository classifier commitsFilterPathRegex
        tagsFilterRegex versionRegex =
      match boundaryOf tags commits with
      | some c =>
        (⟨mapGet tags c.Hash,
          some ((beforeBoundary tags commits).map (commitTypeOf classifier))⟩, none)
      | none =>
        if err = .EOF then
          (⟨some ⟨0, 0, 0, "", "", "0.0.0"⟩,
            some ((beforeBoundary tags commits).map (commitTypeOf classifier))⟩, none)
        else (emptyResult, some (.lib err)) := by
  unfold GetConventionalCommitTypesSinceLastRelease
  simp only [htags, hhead, hlog, scanLoop_eq]
  cases boundaryOf tags commits with
  | some c => simp
  | none =>
    by_cases he : err = .EOF
    · simp [he, mustParse_zero]
    · simp [he]

theorem scan_error_independent (repository : Repository)
    (classifier classifier' : TypeClassifier)
    (commitsFilterPathRegex tagsFilterRegex versionRegex : Option Regexp) :
    (GetConventionalCommitTypesSinceLastRelease repository classifier commitsFilterPathRegex
        tagsFilterRegex versionRegex).2 =
      (GetConventionalCommitTypesSinceLastRelease repository classifier'
        commitsFilterPathRegex tagsFilterRegex versionRegex).2 := by
  rcases hG : GetAllSemVerTags repository tagsFilterRegex versionRegex with ⟨tags, e⟩
  cases e with
  | some e => simp [GetConventionalCommitTypesSinceLastRelease, hG]
  | none =>
    cases hH : repository.Head with
    | error e => simp [GetConventionalCommitTypesSinceLastRelease, hG, hH]
    | ok head =>
      cases hL : repository.Log ⟨head.Hash, pathFilter commitsFilterPathRegex⟩ with
      | error e => simp [GetConventionalCommitTypesSinceLastRelease, hG, hH, hL]
      | ok it =>
        obtain ⟨commits, err⟩ := it
        rw [scan_outcome repository classifier _ _ _ tags head commits err hG hH hL,
          scan_outcome repository classifier' _ _ _ tags head commits err hG hH hL]
        cases boundaryOf tags commits with
        | some c => rfl
        | none => by_cases he : err = .EOF <;> simp [he]

theorem scan_at_boundary (repository : Repository) (classifier : TypeClassifier)
    (commitsFilterPathRegex tagsFilterRegex versionRegex : Option Regexp)
    (tags : Tags) (head : Reference) (pre : List Commit) (c : Commit) (rest : List Commit)
    (err : LibError) (version : Version)
    (htags : GetAllSemVerTags repository tagsFilterRegex versionRegex = (tags, none))
    (hhead : repository.Head = .ok head)
    (hlog : repository.Log ⟨head.Hash, pathFilter commitsFilterPathRegex⟩ =
      .ok ⟨pre ++ c :: rest, err⟩)
    (hpre : ∀ p ∈ pre, mapGet tags p.Hash = none)
    (hc : mapGet tags c.Hash = some version) :
    GetConventionalCommitTypesSinceLastRelease repository classifier commitsFilterPathRegex
        tagsFilterRegex versionRegex =
      (⟨some version, some (pre.map (commitTypeOf classifier))⟩, none) := by
  unfold GetConventionalCommitTypesSinceLastRelease
  simp only [htags, hhead, hlog]
  rw [scanLoop_boundary tags classifier err c rest version hc pre [] hpre]
  simp

end git

/-! ## Compatibility as a relation, pivot and all-pairs comparison -/

namespace git

open semver

theorem compatible_symm (l r : Version) :
    areCompatibleGranularities l r = areCompatibleGranularities r l := by
  rw [Bool.eq_iff_iff, compatible_iff, compatible_iff]
  constructor <;> (rintro ⟨h, hr⟩; refine ⟨h.symm, ?_⟩; omega)

theorem compatible_refl (l : Version) : areCompatibleGranularities l l = true := by
  rw [compatible_iff]
  exact ⟨rfl, Or.inr (Or.inr ⟨rfl, rfl⟩)⟩

theorem compatible_of_triples (l l' r r' : Version)
    (hl : l.major = l'.major ∧ l.minor = l'.minor ∧ l.patch = l'.patch)
    (hr : r.major = r'.major ∧ r.minor = r'.minor ∧ r.patch = r'.patch) :
    areCompatibleGranularities l r = areCompatibleGranularities l' r' := by
  rw [Bool.eq_iff_iff, compatible_iff, compatible_iff, hl.1, hl.2.1, hl.2.2, hr.1, hr.2.1,
    hr.2.2]

theorem compatible_trans_of_patch (a b c : Version) (hb : b.patch ≠ 0)
    (hab : areCompatibleGranularities a b = true)
    (hbc : areCompatibleGranularities b c = true) :
    areCompatibleGranularities a c = true := by
  rw [compatible_iff] at hab hbc ⊢
  obtain ⟨h1, h2⟩ := hab
  obtain ⟨h3, h4⟩ := hbc
  refine ⟨h1.trans h3, ?_⟩
  omega

theorem pivot_accepts_iff (first : tagCandidate) (rest : List tagCandidate) :
    hasDifferentVersions (first :: rest) = false ↔
      ∀ c ∈ rest, areCompatibleGranularities first.version c.version = true := by
  unfold hasDifferentVersions
  split_ifs with hlen
  · rw [Bool.eq_false_iff, Ne, List.any_eq_true]
    constructor
    · intro h c hc
      by_contra hbad
      exact h ⟨c, hc, by simpa using hbad⟩
    · rintro h ⟨c, hc, hbad⟩
      simp [h c hc] at hbad
  · have hnil : rest = [] := by
      cases rest with
      | nil => rfl
      | cons a b => simp at hlen
    simp [hnil]

theorem allPairsCompatible_iff (candidates : List tagCandidate) :
    allPairsCompatible candidates = true ↔
      ∀ a ∈ candidates, ∀ b ∈ candidates,
        areCompatibleGranularities a.version b.version = true := by
  simp [allPairsCompatible, List.all_eq_true]

theorem pivot_of_allPairs (candidates : List tagCandidate)
    (h : allPairsCompatible candidates = true) : hasDifferentVersions candidates = false :=
  hasDifferentVersions_of_compatible candidates ((allPairsCompatible_iff candidates).mp h)

theorem two_tags_outcome (repository : Repository) (versionRegex : Option Regexp)
    (t1 t2 : Reference) (v1 v2 : Version) (h : Hash)
    (hrefs : repository.Tags = .ok [t1, t2])
    (h1 : commitHashOf repository t1 = .ok h) (h2 : commitHashOf repository t2 = .ok h)
    (hv1 : NewVersion (versionString versionRegex t1.Name) = some v1)
    (hv2 : NewVersion (versionString versionRegex t2.Name) = some v2)
    (hc : areCompatibleGranularities v1 v2 = true) :
    GetAllSemVerTags repository none versionRegex =
      ([(h, if getTagSpecificity t1.Name < getTagSpecificity t2.Name then v2 else v1)],
        none) := by
  have hall : ∀ tag ∈ [t1, t2].filter (tagsFilter none),
      commitHashOf repository tag = .ok h := by
    intro tag htag
    rw [filter_tagsFilter_none] at htag
    simp only [List.mem_cons, List.mem_singleton, List.not_mem_nil, or_false] at htag
    rcases htag with rfl | rfl
    · exact h1
    · exact h2
  have hcands : candidatesOf repository versionRegex ([t1, t2].filter (tagsFilter none)) h =
      [⟨t1.Name, v1⟩, ⟨t2.Name, v2⟩] := by
    rw [filter_tagsFilter_none]
    simp [candidatesOf, candidateFor, h1, h2, hv1, hv2]
  have hfor := forEach_single repository versionRegex h ([t1, t2].filter (tagsFilter none))
    [] hall
  rw [hcands] at hfor
  simp only [if_true, List.nil_append, List.cons_ne_nil, if_false] at hfor
  unfold GetAllSemVerTags
  simp only [hrefs, hfor]
  by_cases hs : getTagSpecificity t1.Name < getTagSpecificity t2.Name
  · simp [resolveCommitTags, hasDifferentVersions, hc, selectMostSpecificTag, selectLoop, hs,
      mapInsert]
  · simp [resolveCommitTags, hasDifferentVersions, hc, selectMostSpecificTag, selectLoop, hs,
      mapInsert]

end git

/-! ## Errors of the tag resolution, patterns with a leading "!" -/

namespace git

open semver

theorem forEach_withHistory (repository : Repository) (head : Except LibError Reference)
    (log : LogOptions → Except LibError CommitIter) (versionRegex : Option Regexp) :
    ∀ (refs : List Reference) (m : List (Hash × List tagCandidate)),
      forEach (withHistory repository head log) versionRegex m refs =
        forEach repository versionRegex m refs := by
  intro refs
  induction refs with
  | nil => intro m; rfl
  | cons tag rest ih =>
    intro m
    have ht : forEachTag (withHistory repository head log) versionRegex m tag =
        forEachTag repository versionRegex m tag := rfl
    unfold forEach
    rw [ht]
    cases forEachTag repository versionRegex m tag with
    | error e => rfl
    | ok m1 => exact ih m1

theorem GetAllSemVerTags_withHistory (repository : Repository)
    (head : Except LibError Reference) (log : LogOptions → Except LibError CommitIter)
    (tagsFilterPathRegex versionRegex : Option Regexp) :
    GetAllSemVerTags (withHistory repository head log) tagsFilterPathRegex versionRegex =
      GetAllSemVerTags repository tagsFilterPathRegex versionRegex := by
  have hw : (withHistory repository head log).Tags = repository.Tags := rfl
  unfold GetAllSemVerTags
  rw [hw]
  cases repository.Tags with
  | error e => rfl
  | ok refs => simp only [forEach_withHistory]

theorem resolveCommitTags_error_kind :
    ∀ (groups : List (Hash × List tagCandidate)) (tags tags' : Tags) (err : Error),
      (∀ g ∈ groups, g.2 ≠ []) → resolveCommitTags tags groups = (tags', some err) →
      ∃ h, err = .multipleSemver h := by
  intro groups
  induction groups with
  | nil =>
    intro tags tags' err _ hres
    simp [resolveCommitTags] at hres
  | cons g rest ih =>
    obtain ⟨k, cs⟩ := g
    intro tags tags' err hne hres
    unfold resolveCommitTags at hres
    by_cases hd : hasDifferentVersions cs = true
    · simp only [hd, if_true, Prod.mk.injEq, Option.some.injEq] at hres
      exact ⟨k, hres.2.symm⟩
    · simp only [hd] at hres
      cases cs with
      | nil => exact absurd rfl (hne (k, []) (List.mem_cons_self _ _))
      | cons first more =>
        rw [selectMostSpecificTag_cons] at hres
        exact ih _ tags' err (fun g hg => hne g (List.mem_cons_of_mem _ hg)) hres

theorem resolveCommitTags_of_conflict :
    ∀ (groups : List (Hash × List tagCandidate)) (tags : Tags),
      (∀ g ∈ groups, g.2 ≠ []) →
      (∃ g ∈ groups, hasDifferentVersions g.2 = true) →
      ∃ k, resolveCommitTags tags groups = ([], some (.multipleSemver k)) := by
  intro groups
  induction groups with
  | nil =>
    rintro tags _ ⟨g, hg, _⟩
    simp at hg
  | cons g rest ih =>
    obtain ⟨k, cs⟩ := g
    rintro tags hne ⟨g, hg, hd⟩
    unfold resolveCommitTags
    by_cases hk : hasDifferentVersions cs = true
    · exact ⟨k, by simp [hk]⟩
    · simp only [hk, if_false]
      cases cs with
      | nil => exact absurd rfl (hne (k, []) (List.mem_cons_self _ _))
      | cons first more =>
        rw [selectMostSpecificTag_cons]
        refine ih _ (fun g hg => hne g (List.mem_cons_of_mem _ hg)) ⟨g, ?_, hd⟩
        rcases List.mem_cons.mp hg with h1 | h1
        · subst h1
          exact absurd hd hk
        · exact h1

theorem GetAllSemVerTags_error_kind (repository : Repository)
    (tagsFilterPathRegex versionRegex : Option Regexp) (tags : Tags) (err : Error)
    (hfail : GetAllSemVerTags repository tagsFilterPathRegex versionRegex = (tags, some err)) :
    (∃ e, err = .lib e) ∨ (∃ h, err = .multipleSemver h) := by
  unfold GetAllSemVerTags at hfail
  cases hT : repository.Tags with
  | error e =>
    simp only [hT, Prod.mk.injEq, Option.some.injEq] at hfail
    exact Or.inl ⟨e, hfail.2.symm⟩
  | ok refs =>
    simp only [hT] at hfail
    cases hf : forEach repository versionRegex []
        (refs.filter (tagsFilter tagsFilterPathRegex)) with
    | error e =>
      simp only [hf, Prod.mk.injEq, Option.some.injEq] at hfail
      exact Or.inl ⟨e, hfail.2.symm⟩
    | ok groups =>
      simp only [hf] at hfail
      have hnd := forEach_nodup _ _ _ [] groups hf (by simp)
      have hne := forEach_nonempty _ _ _ [] groups hf (by simp [mapGet])
      refine Or.inr (resolveCommitTags_error_kind groups [] tags err ?_ hfail)
      rintro ⟨k, cs⟩ hg hnil
      simp only at hnil
      subst hnil
      exact hne k (mapGet_of_mem groups k [] hnd hg)

end git

namespace util

theorem ToPathRegex_eq (Compile : String → Except LibError Regexp) (s : String) :
    ToPathRegex Compile s =
      match Compile (trimBang s) with
      | .error err => (⟨none, false⟩, some err)
      | .ok regex => (⟨some regex, hasBang s⟩, none) := by
  unfold ToPathRegex trimBang hasBang
  generalize s.toList = l
  cases l with
  | nil => rfl
  | cons c cs =>
    by_cases hc : c = '!'
    · subst hc
      rfl
    · split <;> split <;> simp_all

theorem bang_spec (s : String) :
    (hasBang s = true → s.toList = '!' :: (trimBang s).toList) ∧
    (hasBang s = false → trimBang s = s) := by
  unfold trimBang hasBang
  generalize hl : s.toList = l
  cases l with
  | nil => simp
  | cons c cs =>
    by_cases hc : c = '!'
    · subst hc
      simp
    · constructor
      · intro h
        split at h
        · rename_i heq
          simp only [List.cons.injEq] at heq
          exact absurd heq.1 hc
        · simp at h
      · intro _
        split
        · rename_i heq
          simp only [List.cons.injEq] at heq
          exact absurd heq.1 hc
        · rfl

end util

/-! ## Claims -/

namespace git

open semver conventionalcommits

/-- C1: when the walk from head is `pre ++ [c] ++ rest`, no commit of `pre`
is in the release map and `c` is, the scan succeeds, `LatestReleaseVersion`
is the map's version for `c`, and `ConventionalCommitTypes` holds one type
per commit of `pre`, its classification; neither the message of `c` nor
`rest` nor the way the walk ends occurs in the result. -/
theorem scan_stops_at_first_release (repository : Repository) (classifier : TypeClassifier)
    (commitsFilterPathRegex tagsFilterRegex versionRegex : Option Regexp)
    (tags : Tags) (head : Reference) (pre : List Commit) (c : Commit) (rest : List Commit)
    (err : LibError) (version : Version)
    (htags : GetAllSemVerTags repository tagsFilterRegex versionRegex = (tags, none))
    (hhead : repository.Head = .ok head)
    (hlog : repository.Log ⟨head.Hash, pathFilter commitsFilterPathRegex⟩ =
      .ok ⟨pre ++ c :: rest, err⟩)
    (hpre : ∀ p ∈ pre, mapGet tags p.Hash = none)
    (hc : mapGet tags c.Hash = some version) :
    GetConventionalCommitTypesSinceLastRelease repository classifier commitsFilterPathRegex
        tagsFilterRegex versionRegex =
      (⟨some version, some (pre.map (commitTypeOf classifier))⟩, none) := by
  unfold GetConventionalCommitTypesSinceLastRelease
  simp only [htags, hhead, hlog]
  rw [scanLoop_boundary tags classifier err c rest version hc pre [] hpre]
  simp

/-- Witness of C1 on the history `[tag 1.0.0 @ 1] → "fix: x" → "feat: y"`. -/
theorem scan_stops_at_first_release_witness :
    GetConventionalCommitTypesSinceLastRelease examples.repoRelease examples.classifier
        none none none =
      (⟨some ⟨1, 0, 0, "", "", "1.0.0"⟩, some [.Feature, .Fix]⟩, none) :=
  scan_stops_at_first_release examples.repoRelease examples.classifier none none none
    [(1, ⟨1, 0, 0, "", "", "1.0.0"⟩)] ⟨"main", 3⟩ [⟨3, "feat: y"⟩, ⟨2, "fix: x"⟩]
    ⟨1, "chore: release"⟩ [] .EOF ⟨1, 0, 0, "", "", "1.0.0"⟩
    (by decide) rfl rfl (by decide) (by decide)

/-- C2 fails on the code: with the tags "v4", "v4.1.0", "v4.2.0" on one
commit, enumerated in this order, `GetAllSemVerTags` succeeds and stores
4.1.0, although 4.1.0 and 4.2.0 are not granularity-compatible; enumerated as
"v4.1.0", "v4", "v4.2.0" the same tags give the conflict error. -/
theorem pivot_misses_conflict :
    GetAllSemVerTags examples.repoPivot none none =
      ([(7, ⟨4, 1, 0, "", "", "v4.1.0"⟩)], none) ∧
    areCompatibleGranularities ⟨4, 1, 0, "", "", "v4.1.0"⟩ ⟨4, 2, 0, "", "", "v4.2.0"⟩ = false ∧
    GetAllSemVerTags examples.repoPivotReordered none none =
      ([], some (.multipleSemver 7)) := by
  decide

/-- C3, as stated, fails: the tags "v4.0.0" and "v4.1.0" (they differ in
minor) on one commit resolve to 4.0.0 without error, so do "v4.1.0" and
"v4.1.5" (they differ in patch), two full tags whose major is 2^63 are both
dropped, which leaves an empty map and no error, and next to a tag that
cannot be dereferenced the tags "v4.1.0" and "v4.2.0" of one commit give the
error of the dereference, not the conflict error. -/
theorem full_tags_with_zero_resolve :
    GetAllSemVerTags examples.repoFullZero none none =
      ([(7, ⟨4, 0, 0, "", "", "v4.0.0"⟩)], none) ∧
    GetAllSemVerTags examples.repoFullPatch none none =
      ([(7, ⟨4, 1, 0, "", "", "v4.1.0"⟩)], none) ∧
    fullTag (2 ^ 63) 1 0 = "v9223372036854775808.1.0" ∧
    fullTag (2 ^ 63) 2 0 = "v9223372036854775808.2.0" ∧
    GetAllSemVerTags examples.repoHugeFull none none = ([], none) ∧
    GetAllSemVerTags examples.repoFullConflictAmong none none =
      ([], some (.lib (.other "unsupported object"))) := by
  decide

/-- C3, amended: in any repository, with any tag filter and any version
pattern, when every tag that passes the filter dereferences to a commit and
the candidates of a commit `h` (its tags that pass the filter and parse) are
two tags whose version strings are written in full as "vN.M.P" or "N.M.P"
with components below 2^63 and differ in minor or in patch, the resolution
returns the conflict error and an empty map, provided that, when the majors
are equal, neither version has minor 0 and patch 0 and, when the minors are
equal too, neither has patch 0. The commit named by the error is one whose
candidates conflict; it is `h` when no other commit has such candidates. -/
theorem full_tags_conflict (repository : Repository)
    (tagsFilterPathRegex versionRegex : Option Regexp) (refs : List Reference)
    (c1 c2 : tagCandidate) (N1 M1 P1 N2 M2 P2 : Nat) (h : Hash)
    (hN1 : N1 < 2 ^ 63) (hM1 : M1 < 2 ^ 63) (hP1 : P1 < 2 ^ 63)
    (hN2 : N2 < 2 ^ 63) (hM2 : M2 < 2 ^ 63) (hP2 : P2 < 2 ^ 63)
    (hrefs : repository.Tags = .ok refs)
    (hderef : ∀ tag ∈ refs, tagsFilter tagsFilterPathRegex tag = true →
      ∃ c, commitHashOf repository tag = .ok c)
    (hcands : candidatesOf repository versionRegex
      (refs.filter (tagsFilter tagsFilterPathRegex)) h = [c1, c2])
    (hw1 : versionString versionRegex c1.originalName = fullTag N1 M1 P1 ∨
      versionString versionRegex c1.originalName = plainTag N1 M1 P1)
    (hw2 : versionString versionRegex c2.originalName = fullTag N2 M2 P2 ∨
      versionString versionRegex c2.originalName = plainTag N2 M2 P2)
    (hdiff : M1 ≠ M2 ∨ P1 ≠ P2)
    (hzero : N1 = N2 → ¬(M1 = 0 ∧ P1 = 0) ∧ ¬(M2 = 0 ∧ P2 = 0) ∧
      (M1 = M2 → P1 ≠ 0 ∧ P2 ≠ 0)) :
    (∃ k, GetAllSemVerTags repository tagsFilterPathRegex versionRegex =
        ([], some (.multipleSemver k)) ∧
      hasDifferentVersions (candidatesOf repository versionRegex
        (refs.filter (tagsFilter tagsFilterPathRegex)) k) = true) ∧
    ((∀ k, k ≠ h → hasDifferentVersions (candidatesOf repository versionRegex
        (refs.filter (tagsFilter tagsFilterPathRegex)) k) = false) →
      GetAllSemVerTags repository tagsFilterPathRegex versionRegex =
        ([], some (.multipleSemver h))) := by
  have hversion : ∀ (c : tagCandidate) (N M P : Nat), N < 2 ^ 63 → M < 2 ^ 63 → P < 2 ^ 63 →
      c ∈ candidatesOf repository versionRegex
        (refs.filter (tagsFilter tagsFilterPathRegex)) h →
      (versionString versionRegex c.originalName = fullTag N M P ∨
        versionString versionRegex c.originalName = plainTag N M P) →
      c.version.major = N ∧ c.version.minor = M ∧ c.version.patch = P := by
    intro c N M P hN hM hP hc hw
    obtain ⟨tag, -, hname, -, hv⟩ := candidate_name_of_mem _ _ _ _ c hc
    rw [← hname, NewVersion_writtenInFull _ N M P hN hM hP hw, Option.some.injEq] at hv
    rw [← hv]
    exact ⟨rfl, rfl, rfl⟩
  obtain ⟨e1, e2, e3⟩ := hversion c1 N1 M1 P1 hN1 hM1 hP1 (by rw [hcands]; simp) hw1
  obtain ⟨f1, f2, f3⟩ := hversion c2 N2 M2 P2 hN2 hM2 hP2 (by rw [hcands]; simp) hw2
  have hincompat : areCompatibleGranularities c1.version c2.version = false := by
    rw [Bool.eq_false_iff, Ne, compatible_iff, e1, e2, e3, f1, f2, f3]
    rintro ⟨hmaj, hrest⟩
    obtain ⟨hz1, hz2, hz3⟩ := hzero hmaj
    rcases hrest with (hz | hz) | ⟨hm, hp⟩ | ⟨hm, hp⟩
    · exact hz1 hz
    · exact hz2 hz
    · rcases hp with hp | hp
      · exact (hz3 hm).1 hp
      · exact (hz3 hm).2 hp
    · rcases hdiff with hd | hd
      · exact hd hm
      · exact hd hp
  have hconflict : hasDifferentVersions [c1, c2] = true := by
    simp [hasDifferentVersions, hincompat]
  have hall : ∀ tag ∈ refs.filter (tagsFilter tagsFilterPathRegex),
      ∃ c, commitHashOf repository tag = .ok c := by
    intro tag htag
    obtain ⟨hmem, hpass⟩ := List.mem_filter.mp htag
    exact hderef tag hmem hpass
  obtain ⟨groups, hf⟩ := forEach_ok repository versionRegex _ [] hall
  have hnd := forEach_nodup _ _ _ [] groups hf (by simp)
  have hne := forEach_nonempty _ _ _ [] groups hf (by simp [mapGet])
  have hg : ∀ k, (mapGet groups k).getD [] = candidatesOf repository versionRegex
      (refs.filter (tagsFilter tagsFilterPathRegex)) k := by
    intro k
    simpa [mapGet] using forEach_groups repository versionRegex _ [] groups hf k
  have hentry : (h, [c1, c2]) ∈ groups := by
    apply mem_of_mapGet
    have := hg h
    rw [hcands] at this
    cases hm : mapGet groups h with
    | none => simp [hm] at this
    | some cs =>
      simp only [hm, Option.getD_some] at this
      rw [this]
  have hres : GetAllSemVerTags repository tagsFilterPathRegex versionRegex =
      resolveCommitTags [] groups := by
    unfold GetAllSemVerTags
    simp only [hrefs, hf]
  obtain ⟨k, hk⟩ := resolveCommitTags_of_conflict groups []
    (by
      rintro ⟨k, cs⟩ hmem hnil
      simp only at hnil
      subst hnil
      exact hne k (mapGet_of_mem groups k [] hnd hmem))
    ⟨(h, [c1, c2]), hentry, hconflict⟩
  have hk' : hasDifferentVersions (candidatesOf repository versionRegex
      (refs.filter (tagsFilter tagsFilterPathRegex)) k) = true := by
    obtain ⟨-, cs, hmem, hd⟩ := resolveCommitTags_conflict groups [] [] k hk
    rw [← hg k, mapGet_of_mem groups k cs hnd hmem]
    exact hd
  refine ⟨⟨k, hres.trans hk, hk'⟩, fun hother => ?_⟩
  by_cases hkh : k = h
  · rw [← hkh]
    exact hres.trans hk
  · rw [hother k hkh] at hk'
    exact absurd hk' (by decide)

/-- Witness of amended C3: the tags "v4.1.0" and "v4.2.0" of commit 7 in a
repository that has a tag on another commit and a tag that cannot be
dereferenced, the latter excluded by the tag filter "v". -/
theorem full_tags_conflict_witness :
    (∃ k, GetAllSemVerTags examples.repoFullConflictAmong (some (examples.literal "v")) none =
        ([], some (.multipleSemver k)) ∧
      hasDifferentVersions (candidatesOf examples.repoFullConflictAmong none
        ([⟨"docs", 9⟩, ⟨"v3.0.0", 1⟩, ⟨"v4.1.0", 7⟩, ⟨"v4.2.0", 7⟩].filter
          (tagsFilter (some (examples.literal "v")))) k) = true) ∧
    ((∀ k, k ≠ 7 → hasDifferentVersions (candidatesOf examples.repoFullConflictAmong none
        ([⟨"docs", 9⟩, ⟨"v3.0.0", 1⟩, ⟨"v4.1.0", 7⟩, ⟨"v4.2.0", 7⟩].filter
          (tagsFilter (some (examples.literal "v")))) k) = false) →
      GetAllSemVerTags examples.repoFullConflictAmong (some (examples.literal "v")) none =
        ([], some (.multipleSemver 7))) :=
  full_tags_conflict examples.repoFullConflictAmong (some (examples.literal "v")) none
    [⟨"docs", 9⟩, ⟨"v3.0.0", 1⟩, ⟨"v4.1.0", 7⟩, ⟨"v4.2.0", 7⟩]
    ⟨"v4.1.0", ⟨4, 1, 0, "", "", "v4.1.0"⟩⟩ ⟨"v4.2.0", ⟨4, 2, 0, "", "", "v4.2.0"⟩⟩
    4 1 0 4 2 0 7
    (by decide) (by decide) (by decide) (by decide) (by decide) (by decide) rfl
    (by
      intro tag htag hpass
      simp only [List.mem_cons, List.mem_singleton, List.not_mem_nil, or_false] at htag
      rcases htag with rfl | rfl | rfl | rfl
      · exact absurd hpass (by decide)
      · exact ⟨1, rfl⟩
      · exact ⟨7, rfl⟩
      · exact ⟨7, rfl⟩)
    (by decide) (Or.inl (by decide)) (Or.inl (by decide)) (by decide) (by decide)

/-- C4, as stated, fails: for N = 2^63, M = 0, P = 0 none of the three tags
parses (the major is not an int64), so the resolution succeeds with an empty
map and the commit is not mapped to any version. -/
theorem huge_major_not_resolved :
    majorTag (2 ^ 63) = "v9223372036854775808" ∧
    minorTag (2 ^ 63) 0 = "v9223372036854775808.0" ∧
    fullTag (2 ^ 63) 0 0 = "v9223372036854775808.0.0" ∧
    GetAllSemVerTags examples.repoHuge none none = ([], none) ∧
    mapGet (GetAllSemVerTags examples.repoHuge none none).1 7 = none := by
  decide

/-- C4, amended: for N, M, P below 2^63 and every order `refs` in which the
three tags "vN", "vN.M", "vN.M.P" of one commit are enumerated,
`GetAllSemVerTags` succeeds and maps that commit to the version N.M.P. -/
theorem granular_tags_resolve (repository : Repository) (N M P : Nat)
    (hN : N < 2 ^ 63) (hM : M < 2 ^ 63) (hP : P < 2 ^ 63) (x1 x2 x3 h : Hash)
    (refs : List Reference) (hrefs : repository.Tags = .ok refs)
    (hperm : refs.Perm [⟨majorTag N, x1⟩, ⟨minorTag N M, x2⟩, ⟨fullTag N M P, x3⟩])
    (h1 : commitHashOf repository ⟨majorTag N, x1⟩ = .ok h)
    (h2 : commitHashOf repository ⟨minorTag N M, x2⟩ = .ok h)
    (h3 : commitHashOf repository ⟨fullTag N M P, x3⟩ = .ok h) :
    GetAllSemVerTags repository none none =
      ([(h, ⟨N, M, P, "", "", fullTag N M P⟩)], none) := by
  have hall : ∀ tag ∈ refs.filter (tagsFilter none), commitHashOf repository tag = .ok h := by
    intro tag htag
    rw [filter_tagsFilter_none] at htag
    have := hperm.subset htag
    simp only [List.mem_cons, List.mem_singleton, List.not_mem_nil, or_false] at this
    rcases this with rfl | rfl | rfl
    · exact h1
    · exact h2
    · exact h3
  have hcanon : candidatesOf repository none
      [⟨majorTag N, x1⟩, ⟨minorTag N M, x2⟩, ⟨fullTag N M P, x3⟩] h =
      [⟨majorTag N, ⟨N, 0, 0, "", "", majorTag N⟩⟩,
        ⟨minorTag N M, ⟨N, M, 0, "", "", minorTag N M⟩⟩,
        ⟨fullTag N M P, ⟨N, M, P, "", "", fullTag N M P⟩⟩] := by
    simp [candidatesOf, candidateFor, h1, h2, h3, versionString, NewVersion_majorTag N hN,
      NewVersion_minorTag N M hN hM, NewVersion_fullTag N M P hN hM hP]
  have hp : (candidatesOf repository none (refs.filter (tagsFilter none)) h).Perm
      [⟨majorTag N, ⟨N, 0, 0, "", "", majorTag N⟩⟩,
        ⟨minorTag N M, ⟨N, M, 0, "", "", minorTag N M⟩⟩,
        ⟨fullTag N M P, ⟨N, M, P, "", "", fullTag N M P⟩⟩] := by
    rw [← hcanon, filter_tagsFilter_none]
    exact List.Perm.filterMap _ hperm
  have hmem : ∀ c ∈ candidatesOf repository none (refs.filter (tagsFilter none)) h,
      c = ⟨majorTag N, ⟨N, 0, 0, "", "", majorTag N⟩⟩ ∨
      c = ⟨minorTag N M, ⟨N, M, 0, "", "", minorTag N M⟩⟩ ∨
      c = ⟨fullTag N M P, ⟨N, M, P, "", "", fullTag N M P⟩⟩ := by
    intro c hc
    simpa using hp.subset hc
  have hne : candidatesOf repository none (refs.filter (tagsFilter none)) h ≠ [] := by
    intro h0
    rw [h0] at hp
    exact absurd (List.Perm.eq_nil (List.Perm.symm hp)) (by simp)
  have hcompat : ∀ a ∈ candidatesOf repository none (refs.filter (tagsFilter none)) h,
      ∀ b ∈ candidatesOf repository none (refs.filter (tagsFilter none)) h,
      areCompatibleGranularities a.version b.version = true := by
    intro a ha b hb
    rw [compatible_iff]
    rcases hmem a ha with rfl | rfl | rfl <;> rcases hmem b hb with rfl | rfl | rfl <;>
      simp
  have hfor := forEach_single repository none h (refs.filter (tagsFilter none)) [] hall
  simp only [if_true, List.nil_append, hne, if_false] at hfor
  obtain ⟨pre, c, post, hdec, hsel, hlt, hle⟩ := selectMostSpecificTag_first_max _ hne
  have hfull : (⟨fullTag N M P, ⟨N, M, P, "", "", fullTag N M P⟩⟩ : tagCandidate) ∈
      candidatesOf repository none (refs.filter (tagsFilter none)) h :=
    hp.symm.subset (by simp)
  have hcmem : c ∈ candidatesOf repository none (refs.filter (tagsFilter none)) h := by
    rw [hdec]
    simp
  have hspec : 2 ≤ getTagSpecificity c.originalName := by
    rw [hdec] at hfull
    rcases List.mem_append.mp hfull with hm | hm
    · have := hlt _ hm
      simp only [getTagSpecificity_fullTag] at this
      omega
    · rcases List.mem_cons.mp hm with hm | hm
      · rw [← hm]
        simp [getTagSpecificity_fullTag]
      · have := hle _ hm
        simpa only [getTagSpecificity_fullTag] using this
  have hceq : c = ⟨fullTag N M P, ⟨N, M, P, "", "", fullTag N M P⟩⟩ := by
    rcases hmem c hcmem with hc | hc | hc
    · rw [hc] at hspec
      simp only [getTagSpecificity_majorTag] at hspec
      omega
    · rw [hc] at hspec
      simp only [getTagSpecificity_minorTag] at hspec
      omega
    · exact hc
  rw [hceq] at hsel
  unfold GetAllSemVerTags
  simp only [hrefs, hfor]
  simp [resolveCommitTags, hasDifferentVersions_of_compatible _ hcompat, hsel, mapInsert]

/-- Witness of amended C4 on the tags "v4", "v4.5", "v4.5.14". -/
theorem granular_tags_resolve_witness :
    GetAllSemVerTags examples.repoGranular none none =
      ([(7, ⟨4, 5, 14, "", "", fullTag 4 5 14⟩)], none) :=
  granular_tags_resolve examples.repoGranular 4 5 14 (by decide) (by decide) (by decide)
    7 7 7 7 [⟨"v4", 7⟩, ⟨"v4.5", 7⟩, ⟨"v4.5.14", 7⟩] rfl (List.Perm.refl _) rfl rfl rfl

/-- C5: for a non-empty candidate list, `selectMostSpecificTag` returns the
version of the first candidate, in input order, whose tag name has the
greatest `getTagSpecificity` (number of "." after one leading "v" is removed):
every candidate before it has strictly fewer, every candidate after it at most
as many; and when `GetAllSemVerTags` succeeds, the version it stores for a
commit with these candidates is that version. -/
theorem most_specific_is_stored (candidates : List tagCandidate) (hne : candidates ≠ []) :
    (∃ pre c post, candidates = pre ++ c :: post ∧
      selectMostSpecificTag candidates = some c.version ∧
      (∀ x ∈ pre, getTagSpecificity x.originalName < getTagSpecificity c.originalName) ∧
      (∀ x ∈ post, getTagSpecificity x.originalName ≤ getTagSpecificity c.originalName)) ∧
    (∀ (repository : Repository) (tagsFilterPathRegex versionRegex : Option Regexp)
      (refs : List Reference) (tags : Tags) (h : Hash),
      repository.Tags = .ok refs →
      GetAllSemVerTags repository tagsFilterPathRegex versionRegex = (tags, none) →
      candidatesOf repository versionRegex
        (refs.filter (tagsFilter tagsFilterPathRegex)) h = candidates →
      mapGet tags h = selectMostSpecificTag candidates) := by
  refine ⟨selectMostSpecificTag_first_max candidates hne, ?_⟩
  intro repository tagsFilterPathRegex versionRegex refs tags h hrefs hok hc
  rw [← hc]
  exact stored_version_of_success repository tagsFilterPathRegex versionRegex refs tags h
    hrefs hok (by rw [hc]; exact hne)

/-- Witness of C5 on the tags "v4", "v4.5", "v4.5.14" of one commit: the
candidate selected is the third one and its version 4.5.14 is stored. -/
theorem most_specific_is_stored_witness :
    selectMostSpecificTag
        [⟨"v4", ⟨4, 0, 0, "", "", "v4"⟩⟩, ⟨"v4.5", ⟨4, 5, 0, "", "", "v4.5"⟩⟩,
          ⟨"v4.5.14", ⟨4, 5, 14, "", "", "v4.5.14"⟩⟩] =
      some ⟨4, 5, 14, "", "", "v4.5.14"⟩ ∧
    mapGet (GetAllSemVerTags examples.repoGranular none none).1 7 =
      some ⟨4, 5, 14, "", "", "v4.5.14"⟩ := by
  have hw := most_specific_is_stored
    [⟨"v4", ⟨4, 0, 0, "", "", "v4"⟩⟩, ⟨"v4.5", ⟨4, 5, 0, "", "", "v4.5"⟩⟩,
      ⟨"v4.5.14", ⟨4, 5, 14, "", "", "v4.5.14"⟩⟩] (by decide)
  have hs : selectMostSpecificTag
      [⟨"v4", ⟨4, 0, 0, "", "", "v4"⟩⟩, ⟨"v4.5", ⟨4, 5, 0, "", "", "v4.5"⟩⟩,
        ⟨"v4.5.14", ⟨4, 5, 14, "", "", "v4.5.14"⟩⟩] =
      some ⟨4, 5, 14, "", "", "v4.5.14"⟩ := by decide
  refine ⟨hs, ?_⟩
  rw [← hs]
  exact hw.2 examples.repoGranular none none
    [⟨"v4", 7⟩, ⟨"v4.5", 7⟩, ⟨"v4.5.14", 7⟩]
    (GetAllSemVerTags examples.repoGranular none none).1 7 rfl (by decide) (by decide)

/-- C6: `areCompatibleGranularities l r` is true exactly when `l` and `r` have
the same major and (a) one of them has minor 0 and patch 0, or (b) the minors
are equal and one of them has patch 0, or (c) minors and patches are equal. -/
theorem areCompatibleGranularities_iff (l r : Version) :
    areCompatibleGranularities l r = true ↔
      l.major = r.major ∧
        (((l.minor = 0 ∧ l.patch = 0) ∨ (r.minor = 0 ∧ r.patch = 0)) ∨
          (l.minor = r.minor ∧ (l.patch = 0 ∨ r.patch = 0)) ∨
          (l.minor = r.minor ∧ l.patch = r.patch)) :=
  compatible_iff l r

/-- C7: when all tags of the repository that pass the filter stand for one
commit, that commit has at least one candidate and the candidates' versions
are pairwise equal, then for every order `refs'` in which the tags are
enumerated, `GetAllSemVerTags` succeeds and the version stored for the commit
is the version of one of the candidates, hence equal to every candidate's
version. -/
theorem equal_versions_resolve (repository : Repository)
    (tagsFilterPathRegex versionRegex : Option Regexp) (refs refs' : List Reference)
    (h : Hash) (hrefs : repository.Tags = .ok refs') (hperm : refs'.Perm refs)
    (hcommit : ∀ tag ∈ refs, tagsFilter tagsFilterPathRegex tag = true →
      commitHashOf repository tag = .ok h)
    (hne : candidatesOf repository versionRegex
      (refs.filter (tagsFilter tagsFilterPathRegex)) h ≠ [])
    (heq : ∀ a ∈ candidatesOf repository versionRegex
        (refs.filter (tagsFilter tagsFilterPathRegex)) h,
      ∀ b ∈ candidatesOf repository versionRegex
        (refs.filter (tagsFilter tagsFilterPathRegex)) h,
      a.version.Equal b.version = true) :
    ∃ c ∈ candidatesOf repository versionRegex
        (refs.filter (tagsFilter tagsFilterPathRegex)) h,
      GetAllSemVerTags repository tagsFilterPathRegex versionRegex =
        ([(h, c.version)], none) ∧
      ∀ a ∈ candidatesOf repository versionRegex
          (refs.filter (tagsFilter tagsFilterPathRegex)) h,
        c.version.Equal a.version = true ∧ a.version.Equal c.version = true := by
  have hp : (candidatesOf repository versionRegex
      (refs'.filter (tagsFilter tagsFilterPathRegex)) h).Perm
      (candidatesOf repository versionRegex
        (refs.filter (tagsFilter tagsFilterPathRegex)) h) :=
    List.Perm.filterMap _ (List.Perm.filter _ hperm)
  have hne' : candidatesOf repository versionRegex
      (refs'.filter (tagsFilter tagsFilterPathRegex)) h ≠ [] := by
    intro h0
    rw [h0] at hp
    exact hne (List.Perm.eq_nil (List.Perm.symm hp))
  have hall : ∀ tag ∈ refs'.filter (tagsFilter tagsFilterPathRegex),
      commitHashOf repository tag = .ok h := by
    intro tag htag
    obtain ⟨h1, h2⟩ := List.mem_filter.mp htag
    exact hcommit tag (hperm.subset h1) h2
  have hfor := forEach_single repository versionRegex h
    (refs'.filter (tagsFilter tagsFilterPathRegex)) [] hall
  simp only [if_true, List.nil_append, hne', if_false] at hfor
  have heq' : ∀ a ∈ candidatesOf repository versionRegex
        (refs'.filter (tagsFilter tagsFilterPathRegex)) h,
      ∀ b ∈ candidatesOf repository versionRegex
        (refs'.filter (tagsFilter tagsFilterPathRegex)) h,
      a.version.Equal b.version = true :=
    fun a ha b hb => heq a (hp.subset ha) b (hp.subset hb)
  obtain ⟨pre, c, post, hdec, hsel, -, -⟩ := selectMostSpecificTag_first_max _ hne'
  have hc' : c ∈ candidatesOf repository versionRegex
      (refs'.filter (tagsFilter tagsFilterPathRegex)) h := by
    rw [hdec]
    simp
  refine ⟨c, hp.subset hc', ?_, ?_⟩
  · unfold GetAllSemVerTags
    simp only [hrefs, hfor]
    simp [resolveCommitTags, hasDifferentVersions_of_equal _ heq', hsel, mapInsert]
  · intro a ha
    exact ⟨heq c (hp.subset hc') a ha, heq a ha c (hp.subset hc')⟩

/-- Witness of C7 on the tags "1.0.0" and "v1.0.0" of one commit, enumerated
in the other order. -/
theorem equal_versions_resolve_witness :
    ∃ c ∈ candidatesOf examples.repoSameVersion none
        ([⟨"v1.0.0", 7⟩, ⟨"1.0.0", 7⟩].filter (tagsFilter none)) 7,
      GetAllSemVerTags examples.repoSameVersion none none = ([(7, c.version)], none) ∧
      ∀ a ∈ candidatesOf examples.repoSameVersion none
          ([⟨"v1.0.0", 7⟩, ⟨"1.0.0", 7⟩].filter (tagsFilter none)) 7,
        c.version.Equal a.version = true ∧ a.version.Equal c.version = true :=
  equal_versions_resolve examples.repoSameVersion none none
    [⟨"v1.0.0", 7⟩, ⟨"1.0.0", 7⟩] [⟨"1.0.0", 7⟩, ⟨"v1.0.0", 7⟩] 7 rfl
    (List.Perm.swap _ _ _)
    (by
      intro tag htag _
      simp only [List.mem_cons, List.mem_singleton, List.not_mem_nil, or_false] at htag
      rcases htag with rfl | rfl <;> rfl)
    (by decide) (by decide)

/-- C8: when the walk ends at end-of-history and none of its commits is in
the release map, the scan succeeds, `LatestReleaseVersion` is 0.0.0 and
`ConventionalCommitTypes` has one entry per walked commit, so as many entries
as commits were walked (none for the empty walk). -/
theorem scan_without_release (repository : Repository) (classifier : TypeClassifier)
    (commitsFilterPathRegex tagsFilterRegex versionRegex : Option Regexp)
    (tags : Tags) (head : Reference) (commits : List Commit)
    (htags : GetAllSemVerTags repository tagsFilterRegex versionRegex = (tags, none))
    (hhead : repository.Head = .ok head)
    (hlog : repository.Log ⟨head.Hash, pathFilter commitsFilterPathRegex⟩ =
      .ok ⟨commits, .EOF⟩)
    (hnone : ∀ p ∈ commits, mapGet tags p.Hash = none) :
    GetConventionalCommitTypesSinceLastRelease repository classifier commitsFilterPathRegex
        tagsFilterRegex versionRegex =
      (⟨some ⟨0, 0, 0, "", "", "0.0.0"⟩, some (commits.map (commitTypeOf classifier))⟩, none) ∧
    (commits.map (commitTypeOf classifier)).length = commits.length := by
  refine ⟨?_, List.length_map _ _⟩
  unfold GetConventionalCommitTypesSinceLastRelease
  simp only [htags, hhead, hlog]
  rw [scanLoop_exhausted tags classifier .EOF commits [] hnone]
  simp [mustParse_zero]

/-- Witness of C8 on a history of two commits without any tag. -/
theorem scan_without_release_witness :
    GetConventionalCommitTypesSinceLastRelease examples.repoUntagged examples.classifier
        none none none =
      (⟨some ⟨0, 0, 0, "", "", "0.0.0"⟩, some [.Feature, .Chore]⟩, none) ∧
    [CommitType.Feature, CommitType.Chore].length = 2 :=
  scan_without_release examples.repoUntagged examples.classifier none none none
    [] ⟨"main", 2⟩ [⟨2, "feat: y"⟩, ⟨1, "first"⟩] (by decide) rfl rfl (by decide)

/-- C9, as stated, fails: in a repository without head in which two
lightweight tags "1.0.0" and "2.0.0" name the same object, the scan reports
the tag conflict and not `ErrNoCommitsFound`. -/
theorem no_commits_not_always_reported :
    examples.repoEmptyTagged.Head = .error .ErrReferenceNotFound ∧
    GetConventionalCommitTypesSinceLastRelease examples.repoEmptyTagged examples.classifier
        none none none = (emptyResult, some (.multipleSemver 5)) ∧
    Error.multipleSemver 5 ≠ Error.ErrNoCommitsFound :=
  ⟨rfl, by decide, by decide⟩

/-- C9, amended: when tag resolution succeeds and the head lookup fails, the
scan fails with `ErrNoCommitsFound` if the lookup reported
reference-not-found, and with the lookup's own error otherwise, which is then
different from `ErrNoCommitsFound`; the result next to the error is empty. -/
theorem no_commits_condition (repository : Repository) (classifier : TypeClassifier)
    (commitsFilterPathRegex tagsFilterRegex versionRegex : Option Regexp) (err : LibError)
    (htags : (GetAllSemVerTags repository tagsFilterRegex versionRegex).2 = none)
    (hhead : repository.Head = .error err) :
    (err = .ErrReferenceNotFound →
      GetConventionalCommitTypesSinceLastRelease repository classifier commitsFilterPathRegex
        tagsFilterRegex versionRegex = (emptyResult, some .ErrNoCommitsFound)) ∧
    (err ≠ .ErrReferenceNotFound →
      GetConventionalCommitTypesSinceLastRelease repository classifier commitsFilterPathRegex
        tagsFilterRegex versionRegex = (emptyResult, some (.lib err)) ∧
      Error.lib err ≠ Error.ErrNoCommitsFound) := by
  rcases hG : GetAllSemVerTags repository tagsFilterRegex versionRegex with ⟨tags, e⟩
  rw [hG] at htags
  simp only at htags
  subst htags
  unfold GetConventionalCommitTypesSinceLastRelease
  simp only [hG, hhead]
  constructor
  · intro h
    simp [h]
  · intro h
    simp [h]

/-- Witness of amended C9 on a repository without head and without tags. -/
theorem no_commits_condition_witness :
    (LibError.ErrReferenceNotFound = .ErrReferenceNotFound →
      GetConventionalCommitTypesSinceLastRelease examples.repoEmpty examples.classifier
        none none none = (emptyResult, some .ErrNoCommitsFound)) ∧
    (LibError.ErrReferenceNotFound ≠ .ErrReferenceNotFound →
      GetConventionalCommitTypesSinceLastRelease examples.repoEmpty examples.classifier
        none none none = (emptyResult, some (.lib .ErrReferenceNotFound)) ∧
      Error.lib .ErrReferenceNotFound ≠ Error.ErrNoCommitsFound) :=
  no_commits_condition examples.repoEmpty examples.classifier none none none
    .ErrReferenceNotFound (by decide) rfl

/-- C10, as stated, fails: the tag "docs" does not parse, yet with it the
resolution fails (its tag object does not point at a commit), and with that
tag deleted the resolution succeeds. -/
theorem unparseable_tag_can_abort :
    parses none ⟨"docs", 9⟩ = false ∧
    GetAllSemVerTags (withTags examples.repoBrokenTag [⟨"1.0.0", 1⟩]) none none =
      ([(1, ⟨1, 0, 0, "", "", "1.0.0"⟩)], none) ∧
    GetAllSemVerTags examples.repoBrokenTag none none =
      ([], some (.lib (.other "unsupported object"))) := by
  decide

/-- C10, amended: when every tag that passes the filter and whose version
string does not parse stands for a commit (its tag-object lookup and
dereference do not fail), deleting all tags whose version string does not
parse leaves the outcome of `GetAllSemVerTags`, map and error, unchanged. -/
theorem unparseable_tags_ignored (repository : Repository)
    (tagsFilterPathRegex versionRegex : Option Regexp) (refs : List Reference)
    (hrefs : repository.Tags = .ok refs)
    (hres : ∀ tag ∈ refs, tagsFilter tagsFilterPathRegex tag = true →
      parses versionRegex tag = false → ∃ h, commitHashOf repository tag = .ok h) :
    GetAllSemVerTags (withTags repository (refs.filter (parses versionRegex)))
        tagsFilterPathRegex versionRegex =
      GetAllSemVerTags repository tagsFilterPathRegex versionRegex := by
  have hcomm : (refs.filter (parses versionRegex)).filter (tagsFilter tagsFilterPathRegex) =
      (refs.filter (tagsFilter tagsFilterPathRegex)).filter (parses versionRegex) := by
    rw [List.filter_filter, List.filter_filter]
    congr 1
    funext tag
    exact Bool.and_comm _ _
  have hall : ∀ tag ∈ refs.filter (tagsFilter tagsFilterPathRegex),
      parses versionRegex tag = false → ∃ h, commitHashOf repository tag = .ok h := by
    intro tag htag
    obtain ⟨h1, h2⟩ := List.mem_filter.mp htag
    exact hres tag h1 h2
  have hw : (withTags repository (refs.filter (parses versionRegex))).Tags =
      .ok (refs.filter (parses versionRegex)) := rfl
  unfold GetAllSemVerTags
  simp only [hw, hrefs, forEach_withTags, hcomm,
    forEach_filter_parses repository versionRegex _ [] hall]

/-- Witness of amended C10: the lightweight tag "docs" does not parse and
stands for commit 2; deleting it changes nothing. -/
theorem unparseable_tags_ignored_witness :
    GetAllSemVerTags
        (withTags examples.repoDocsTag
          ([⟨"1.0.0", 1⟩, ⟨"docs", 2⟩].filter (parses none))) none none =
      GetAllSemVerTags examples.repoDocsTag none none :=
  unparseable_tags_ignored examples.repoDocsTag none none [⟨"1.0.0", 1⟩, ⟨"docs", 2⟩] rfl
    (by
      intro tag htag _ _
      simp only [List.mem_cons, List.mem_singleton, List.not_mem_nil, or_false] at htag
      rcases htag with rfl | rfl
      · exact ⟨1, rfl⟩
      · exact ⟨2, rfl⟩)

/-- C11: with a filter pattern, `GetAllSemVerTags` returns what it returns
without filter on the sub-list of the tags whose short name matches the
pattern, map and error alike; every candidate comes from a tag whose name
matches; and without filter the sub-list considered is the whole tag list. -/
theorem tag_filter_selects (repository : Repository) (re : Regexp)
    (versionRegex : Option Regexp) (refs : List Reference)
    (hrefs : repository.Tags = .ok refs) :
    GetAllSemVerTags repository (some re) versionRegex =
      GetAllSemVerTags
        (withTags repository (refs.filter (fun tag => re.MatchString tag.Name)))
        none versionRegex ∧
    (∀ h, ∀ c ∈ candidatesOf repository versionRegex
        (refs.filter (tagsFilter (some re))) h, re.MatchString c.originalName = true) ∧
    refs.filter (tagsFilter none) = refs := by
  refine ⟨?_, ?_, filter_tagsFilter_none refs⟩
  · have hw : (withTags repository (refs.filter (fun tag => re.MatchString tag.Name))).Tags =
        .ok (refs.filter (fun tag => re.MatchString tag.Name)) := rfl
    unfold GetAllSemVerTags
    simp only [hw, hrefs, forEach_withTags, filter_tagsFilter_none, filter_tagsFilter_some]
  · intro h c hc
    obtain ⟨tag, htag, hname, -, -⟩ := candidate_name_of_mem _ _ _ _ _ hc
    rw [hname]
    exact (List.mem_filter.mp htag).2

/-- Witness of C11: filter `component-` on the tags "component-1.0.0",
"2.0.0" and the broken tag "docs". -/
theorem tag_filter_selects_witness :
    GetAllSemVerTags examples.repoComponent (some (examples.literal "component-"))
        (some (examples.literalThenGroup "component-")) =
      GetAllSemVerTags
        (withTags examples.repoComponent
          ([⟨"component-1.0.0", 1⟩, ⟨"2.0.0", 2⟩, ⟨"docs", 9⟩].filter
            (fun tag => (examples.literal "component-").MatchString tag.Name)))
        none (some (examples.literalThenGroup "component-")) ∧
    (∀ h, ∀ c ∈ candidatesOf examples.repoComponent
        (some (examples.literalThenGroup "component-"))
        ([⟨"component-1.0.0", 1⟩, ⟨"2.0.0", 2⟩, ⟨"docs", 9⟩].filter
          (tagsFilter (some (examples.literal "component-")))) h,
      (examples.literal "component-").MatchString c.originalName = true) ∧
    [(⟨"component-1.0.0", 1⟩ : Reference), ⟨"2.0.0", 2⟩, ⟨"docs", 9⟩].filter
        (tagsFilter none) =
      [⟨"component-1.0.0", 1⟩, ⟨"2.0.0", 2⟩, ⟨"docs", 9⟩] :=
  tag_filter_selects examples.repoComponent (examples.literal "component-")
    (some (examples.literalThenGroup "component-"))
    [⟨"component-1.0.0", 1⟩, ⟨"2.0.0", 2⟩, ⟨"docs", 9⟩] rfl

/-- C12: the string handed to `semver.NewVersion` is the tag name when no
extraction pattern is configured or when the pattern does not match, and the
first capture group when `FindStringSubmatch` reports a match with a capture
group; for a repository with this single tag the outcome of `GetAllSemVerTags`
is the version parsed from that string, or the empty map when it does not
parse. -/
theorem version_string_extracted (versionRegex : Option Regexp) (tagName : String) :
    (versionRegex = none → versionString versionRegex tagName = tagName) ∧
    (∀ re : Regexp, versionRegex = some re → re.FindStringSubmatch tagName = [] →
      versionString versionRegex tagName = tagName) ∧
    (∀ (re : Regexp) (whole group : String) (rest : List String),
      versionRegex = some re → re.FindStringSubmatch tagName = whole :: group :: rest →
      versionString versionRegex tagName = group) ∧
    (∀ (repository : Repository) (hash h : Hash),
      repository.Tags = .ok [⟨tagName, hash⟩] →
      commitHashOf repository ⟨tagName, hash⟩ = .ok h →
      GetAllSemVerTags repository none versionRegex =
        match NewVersion (versionString versionRegex tagName) with
        | some version => ([(h, version)], none)
        | none => ([], none)) := by
  refine ⟨?_, ?_, ?_, ?_⟩
  · intro hn
    simp [hn, versionString]
  · intro re hre hm
    simp [hre, versionString, hm]
  · intro re whole group rest hre hm
    simp [hre, versionString, hm]
  · intro repository hash h hrefs hc
    exact single_tag_outcome repository versionRegex ⟨tagName, hash⟩ h hrefs hc

/-- Witness of C12: "common-4.5.14" resolves to 4.5.14 with the pattern
`common-(.+)` and is dropped without a pattern. -/
theorem version_string_extracted_witness :
    versionString (some (examples.literalThenGroup "common-")) "common-4.5.14" = "4.5.14" ∧
    GetAllSemVerTags examples.repoCommon none (some (examples.literalThenGroup "common-")) =
      ([(7, ⟨4, 5, 14, "", "", "4.5.14"⟩)], none) ∧
    versionString none "common-4.5.14" = "common-4.5.14" ∧
    GetAllSemVerTags examples.repoCommon none none = ([], none) := by
  have hw := version_string_extracted (some (examples.literalThenGroup "common-"))
    "common-4.5.14"
  have hn := version_string_extracted none "common-4.5.14"
  have h1 : versionString (some (examples.literalThenGroup "common-")) "common-4.5.14" =
      "4.5.14" :=
    hw.2.2.1 (examples.literalThenGroup "common-") "common-4.5.14" "4.5.14" [] rfl
      (by decide)
  have h2 := hw.2.2.2 examples.repoCommon 7 7 rfl rfl
  have h3 := hn.1 rfl
  have h4 := hn.2.2.2 examples.repoCommon 7 7 rfl rfl
  refine ⟨h1, ?_, h3, ?_⟩
  · rw [h2, h1]
    decide
  · rw [h4, h3]
    decide

/-- C13: the error of the scan is the same for every classifier, so a
classifier failure never causes one; when the scan succeeds, its list holds
one type per commit walked before the release boundary, in walk order; and
the type recorded for a commit whose message the classifier rejects is
`Chore`. -/
theorem classifier_failure_is_chore (repository : Repository) (classifier : TypeClassifier)
    (commitsFilterPathRegex tagsFilterRegex versionRegex : Option Regexp) :
    (∀ classifier' : TypeClassifier,
      (GetConventionalCommitTypesSinceLastRelease repository classifier
          commitsFilterPathRegex tagsFilterRegex versionRegex).2 =
        (GetConventionalCommitTypesSinceLastRelease repository classifier'
          commitsFilterPathRegex tagsFilterRegex versionRegex).2) ∧
    (∀ (tags : Tags) (head : Reference) (commits : List Commit) (err : LibError),
      GetAllSemVerTags repository tagsFilterRegex versionRegex = (tags, none) →
      repository.Head = .ok head →
      repository.Log ⟨head.Hash, pathFilter commitsFilterPathRegex⟩ = .ok ⟨commits, err⟩ →
      (GetConventionalCommitTypesSinceLastRelease repository classifier
          commitsFilterPathRegex tagsFilterRegex versionRegex).2 = none →
      (GetConventionalCommitTypesSinceLastRelease repository classifier
          commitsFilterPathRegex tagsFilterRegex versionRegex).1.ConventionalCommitTypes =
        some ((beforeBoundary tags commits).map (commitTypeOf classifier))) ∧
    (∀ c : Commit, CommitMessageToTypeWithClassifier c.Message classifier = none →
      commitTypeOf classifier c = .Chore) := by
  refine ⟨fun classifier' => scan_error_independent repository classifier classifier' _ _ _,
    ?_, ?_⟩
  · intro tags head commits err hG hH hL hok
    rw [scan_outcome repository classifier _ _ _ tags head commits err hG hH hL] at hok ⊢
    cases hb : boundaryOf tags commits with
    | some c => rfl
    | none =>
      rw [hb] at hok
      by_cases he : err = .EOF
      · simp [he]
      · simp [he] at hok
  · intro c hc
    simp [commitTypeOf, hc]

/-- Witness of C13: the message "first" is rejected and recorded as
`Chore`. -/
theorem classifier_failure_is_chore_witness :
    (GetConventionalCommitTypesSinceLastRelease examples.repoUntagged examples.classifier
        none none none).1.ConventionalCommitTypes = some [.Feature, .Chore] ∧
    commitTypeOf examples.classifier ⟨1, "first"⟩ = .Chore :=
  ⟨(classifier_failure_is_chore examples.repoUntagged examples.classifier none none none).2.1
      [] ⟨"main", 2⟩ [⟨2, "feat: y"⟩, ⟨1, "first"⟩] .EOF (by decide) rfl rfl (by decide),
    (classifier_failure_is_chore examples.repoUntagged examples.classifier none none none).2.2
      ⟨1, "first"⟩ (by decide)⟩

/-- C14, as stated, fails: walking backward from head, commit 2 is the first
commit present in the release map, but it touched no path matching `src/`, so
the walk does not yield it; the scan goes past it, classifies commit 1 as
well and reports 0.0.0 instead of 1.0.0. -/
theorem untouched_release_is_skipped :
    GetAllSemVerTags examples.repoDocsRelease none none =
      ([(2, ⟨1, 0, 0, "", "", "1.0.0"⟩)], none) ∧
    examples.historyDocsRelease.map (fun c => c.commit.Hash) = [3, 2, 1] ∧
    examples.historyDocsRelease.map (touches (pathFilter (some (examples.literal "src/")))) =
      [true, false, true] ∧
    GetConventionalCommitTypesSinceLastRelease examples.repoDocsRelease examples.classifier
        (some (examples.literal "src/")) none none =
      (⟨some ⟨0, 0, 0, "", "", "0.0.0"⟩, some [.Feature, .Fix]⟩, none) := by
  decide

/-- C14, amended: when the history from head backward is
`pre ++ [b] ++ rest`, the walk yields the commits that touched a matching
path, `b` touched a matching path and is in the release map, and no commit of
`pre` that touched a matching path is in the release map, then the scan
succeeds, reports the version of `b`, and classifies exactly the commits of
`pre` that touched a matching path; the other commits of `pre` are neither
classified nor counted. -/
theorem path_filtered_scan (repository : Repository) (classifier : TypeClassifier)
    (commitsFilterPathRegex tagsFilterRegex versionRegex : Option Regexp)
    (tags : Tags) (head : Reference) (pre : List HistoryCommit) (b : HistoryCommit)
    (rest : List HistoryCommit) (version : Version)
    (htags : GetAllSemVerTags repository tagsFilterRegex versionRegex = (tags, none))
    (hhead : repository.Head = .ok head)
    (hlog : repository.Log ⟨head.Hash, pathFilter commitsFilterPathRegex⟩ =
      .ok (walkCommits (pre ++ b :: rest) (pathFilter commitsFilterPathRegex)))
    (hpre : ∀ p ∈ pre, touches (pathFilter commitsFilterPathRegex) p = true →
      mapGet tags p.commit.Hash = none)
    (hb : touches (pathFilter commitsFilterPathRegex) b = true)
    (hbv : mapGet tags b.commit.Hash = some version) :
    GetConventionalCommitTypesSinceLastRelease repository classifier commitsFilterPathRegex
        tagsFilterRegex versionRegex =
      (⟨some version,
        some ((pre.filter (touches (pathFilter commitsFilterPathRegex))).map
          (fun c => commitTypeOf classifier c.commit))⟩, none) := by
  have hwalk : walkCommits (pre ++ b :: rest) (pathFilter commitsFilterPathRegex) =
      ⟨(pre.filter (touches (pathFilter commitsFilterPathRegex))).map (fun c => c.commit) ++
        b.commit :: (rest.filter (touches (pathFilter commitsFilterPathRegex))).map
          (fun c => c.commit), .EOF⟩ := by
    simp [walkCommits, List.filter_append, List.filter_cons, hb]
  rw [hwalk] at hlog
  have hun : ∀ p ∈ (pre.filter (touches (pathFilter commitsFilterPathRegex))).map
      (fun c => c.commit), mapGet tags p.Hash = none := by
    intro p hp
    obtain ⟨q, hq, rfl⟩ := List.mem_map.mp hp
    obtain ⟨h1, h2⟩ := List.mem_filter.mp hq
    exact hpre q h1 h2
  rw [scan_at_boundary repository classifier _ _ _ tags head _ b.commit _ .EOF version htags
    hhead hlog hun hbv]
  simp [List.map_map, Function.comp]

/-- Witness of amended C14: commit 2 touched only `docs/x` and is skipped,
the release commit 1 touched `src/b`. -/
theorem path_filtered_scan_witness :
    GetConventionalCommitTypesSinceLastRelease examples.repoSrcRelease examples.classifier
        (some (examples.literal "src/")) none none =
      (⟨some ⟨1, 0, 0, "", "", "1.0.0"⟩,
        some (([⟨⟨3, "feat: y"⟩, ["src/a"]⟩, ⟨⟨2, "fix: x"⟩, ["docs/x"]⟩].filter
          (touches (pathFilter (some (examples.literal "src/"))))).map
            (fun c => commitTypeOf examples.classifier c.commit))⟩, none) :=
  path_filtered_scan examples.repoSrcRelease examples.classifier
    (some (examples.literal "src/")) none none [(1, ⟨1, 0, 0, "", "", "1.0.0"⟩)]
    ⟨"main", 3⟩ [⟨⟨3, "feat: y"⟩, ["src/a"]⟩, ⟨⟨2, "fix: x"⟩, ["docs/x"]⟩]
    ⟨⟨1, "chore: release"⟩, ["src/b"]⟩ [⟨⟨0, "feat: y"⟩, ["src/c"]⟩]
    ⟨1, 0, 0, "", "", "1.0.0"⟩ (by decide) rfl rfl (by decide) (by decide) (by decide)

/-- C15: after a successful tag resolution and head lookup, an error of
`repository.Log` is returned as it is with an empty result; so is the error,
other than `io.EOF`, with which the walk ends after any number of commits
that are not in the release map, none of the types collected being returned;
and a walk of such commits that ends with `io.EOF` is no error. -/
theorem walk_errors_propagate (repository : Repository) (classifier : TypeClassifier)
    (commitsFilterPathRegex tagsFilterRegex versionRegex : Option Regexp)
    (tags : Tags) (head : Reference)
    (htags : GetAllSemVerTags repository tagsFilterRegex versionRegex = (tags, none))
    (hhead : repository.Head = .ok head) :
    (∀ e : LibError,
      repository.Log ⟨head.Hash, pathFilter commitsFilterPathRegex⟩ = .error e →
      GetConventionalCommitTypesSinceLastRelease repository classifier
        commitsFilterPathRegex tagsFilterRegex versionRegex = (⟨none, none⟩, some (.lib e))) ∧
    (∀ (commits : List Commit) (e : LibError),
      repository.Log ⟨head.Hash, pathFilter commitsFilterPathRegex⟩ = .ok ⟨commits, e⟩ →
      (∀ c ∈ commits, mapGet tags c.Hash = none) → e ≠ .EOF →
      GetConventionalCommitTypesSinceLastRelease repository classifier
        commitsFilterPathRegex tagsFilterRegex versionRegex = (⟨none, none⟩, some (.lib e))) ∧
    (∀ (commits : List Commit),
      repository.Log ⟨head.Hash, pathFilter commitsFilterPathRegex⟩ = .ok ⟨commits, .EOF⟩ →
      (∀ c ∈ commits, mapGet tags c.Hash = none) →
      (GetConventionalCommitTypesSinceLastRelease repository classifier
        commitsFilterPathRegex tagsFilterRegex versionRegex).2 = none) := by
  refine ⟨?_, ?_, ?_⟩
  · intro e hL
    simp [GetConventionalCommitTypesSinceLastRelease, htags, hhead, hL, emptyResult]
  · intro commits e hL hun he
    rw [scan_outcome repository classifier _ _ _ tags head commits e htags hhead hL,
      (untagged_boundary tags commits hun).1]
    simp [he, emptyResult]
  · intro commits hL hun
    rw [scan_outcome repository classifier _ _ _ tags head commits .EOF htags hhead hL,
      (untagged_boundary tags commits hun).1]
    simp

/-- Witness of C15: a repository whose iterator cannot be built and one
whose walk fails after one commit. -/
theorem walk_errors_propagate_witness :
    GetConventionalCommitTypesSinceLastRelease examples.repoLogFails examples.classifier
        none none none = (⟨none, none⟩, some (.lib (.other "object not readable"))) ∧
    GetConventionalCommitTypesSinceLastRelease examples.repoWalkFails examples.classifier
        none none none = (⟨none, none⟩, some (.lib (.other "object not readable"))) :=
  ⟨(walk_errors_propagate examples.repoLogFails examples.classifier none none none
      [] ⟨"main", 2⟩ (by decide) rfl).1 (.other "object not readable") rfl,
    (walk_errors_propagate examples.repoWalkFails examples.classifier none none none
      [] ⟨"main", 2⟩ (by decide) rfl).2.1 [⟨2, "feat: y"⟩] (.other "object not readable") rfl
      (by decide) (by decide)⟩

/-- C16: when `GetConventionalCommitTypesSinceLastRelease` returns no error,
`LatestReleaseVersion` is not `nil` and `ConventionalCommitTypes` is not the
`nil` slice. -/
theorem result_fields_present (repository : Repository) (classifier : TypeClassifier)
    (commitsFilterPathRegex tagsFilterRegex versionRegex : Option Regexp)
    (hok : (GetConventionalCommitTypesSinceLastRelease repository classifier
      commitsFilterPathRegex tagsFilterRegex versionRegex).2 = none) :
    (GetConventionalCommitTypesSinceLastRelease repository classifier commitsFilterPathRegex
      tagsFilterRegex versionRegex).1.LatestReleaseVersion.isSome = true ∧
    (GetConventionalCommitTypesSinceLastRelease repository classifier commitsFilterPathRegex
      tagsFilterRegex versionRegex).1.ConventionalCommitTypes.isSome = true := by
  rcases hG : GetAllSemVerTags repository tagsFilterRegex versionRegex with ⟨tags, e⟩
  cases e with
  | some e => simp [GetConventionalCommitTypesSinceLastRelease, hG] at hok
  | none =>
    cases hH : repository.Head with
    | error e =>
      simp only [GetConventionalCommitTypesSinceLastRelease, hG, hH] at hok
      split_ifs at hok
    | ok head =>
      cases hL : repository.Log ⟨head.Hash, pathFilter commitsFilterPathRegex⟩ with
      | error e => simp [GetConventionalCommitTypesSinceLastRelease, hG, hH, hL] at hok
      | ok it =>
        obtain ⟨commits, err⟩ := it
        rw [scan_outcome repository classifier _ _ _ tags head commits err hG hH hL] at hok ⊢
        cases hb : boundaryOf tags commits with
        | some c =>
          simp [boundaryOf_isSome tags commits c hb]
        | none =>
          rw [hb] at hok
          by_cases he : err = .EOF
          · simp [he]
          · simp [he] at hok

/-- Witness of C16 on a walk whose first commit is tagged. -/
theorem result_fields_present_witness :
    (GetConventionalCommitTypesSinceLastRelease examples.repoPivot examples.classifier
      none none none).1.LatestReleaseVersion.isSome = true ∧
    (GetConventionalCommitTypesSinceLastRelease examples.repoPivot examples.classifier
      none none none).1.ConventionalCommitTypes.isSome = true :=
  result_fields_present examples.repoPivot examples.classifier none none none (by decide)

/-- C17, as stated, fails: a repository whose only tag, "docs", does not
parse is a repository without parseable tags, yet `GetAllSemVerTags` returns
an error, the tag object of "docs" not pointing at a commit. -/
theorem unparseable_only_can_fail :
    parses none ⟨"docs", 9⟩ = false ∧
    candidatesOf examples.repoOnlyBrokenTag none [⟨"docs", 9⟩] 9 = [] ∧
    GetAllSemVerTags examples.repoOnlyBrokenTag none none =
      ([], some (.lib (.other "unsupported object"))) := by
  decide

/-- C17, amended: when `GetAllSemVerTags` succeeds, a commit has exactly one
entry in the map if and only if it has at least one candidate (a tag that
passes the filter, stands for the commit and parses), and no entry
otherwise; and when every tag that passes the filter fails to parse and
stands for a commit without error, in particular when there is no tag, the
result is the empty map and no error. -/
theorem one_entry_per_tagged_commit (repository : Repository)
    (tagsFilterPathRegex versionRegex : Option Regexp) (refs : List Reference)
    (hrefs : repository.Tags = .ok refs) :
    (∀ tags : Tags,
      GetAllSemVerTags repository tagsFilterPathRegex versionRegex = (tags, none) →
      ∀ h : Hash,
        ((tags.map Prod.fst).count h = 1 ↔
          candidatesOf repository versionRegex
            (refs.filter (tagsFilter tagsFilterPathRegex)) h ≠ []) ∧
        (candidatesOf repository versionRegex
            (refs.filter (tagsFilter tagsFilterPathRegex)) h = [] →
          (tags.map Prod.fst).count h = 0 ∧ mapGet tags h = none)) ∧
    ((∀ tag ∈ refs, tagsFilter tagsFilterPathRegex tag = true →
        parses versionRegex tag = false ∧ ∃ h, commitHashOf repository tag = .ok h) →
      GetAllSemVerTags repository tagsFilterPathRegex versionRegex = ([], none)) := by
  constructor
  · intro tags hok h
    obtain ⟨hnd, hsome, hnone⟩ :=
      entry_iff_candidates repository tagsFilterPathRegex versionRegex refs tags hrefs hok h
    have hzero : candidatesOf repository versionRegex
        (refs.filter (tagsFilter tagsFilterPathRegex)) h = [] →
        (tags.map Prod.fst).count h = 0 ∧ mapGet tags h = none := by
      intro hc
      have hn := hnone hc
      refine ⟨?_, hn⟩
      rw [List.count_eq_zero]
      intro hmem
      have := (mapGet_isSome_iff tags h).mpr hmem
      rw [hn] at this
      simp at this
    refine ⟨⟨?_, ?_⟩, hzero⟩
    · intro hone hc
      have := (hzero hc).1
      omega
    · intro hc
      exact List.count_eq_one_of_mem hnd ((mapGet_isSome_iff tags h).mp (hsome hc))
  · intro hall
    have hl : ∀ tag ∈ refs.filter (tagsFilter tagsFilterPathRegex),
        parses versionRegex tag = false → ∃ h, commitHashOf repository tag = .ok h := by
      intro tag htag _
      obtain ⟨h1, h2⟩ := List.mem_filter.mp htag
      exact (hall tag h1 h2).2
    have hnil : (refs.filter (tagsFilter tagsFilterPathRegex)).filter (parses versionRegex) =
        [] := by
      rw [List.filter_eq_nil_iff]
      intro tag htag
      obtain ⟨h1, h2⟩ := List.mem_filter.mp htag
      simp [(hall tag h1 h2).1]
    have hf := forEach_filter_parses repository versionRegex _ [] hl
    rw [hnil] at hf
    unfold GetAllSemVerTags
    simp only [hrefs, ← hf, forEach, resolveCommitTags]

/-- Witness of amended C17: tags "1.0.0" on commit 1 and "docs" on commit
2; a repository without tags. -/
theorem one_entry_per_tagged_commit_witness :
    (([(1, (⟨1, 0, 0, "", "", "1.0.0"⟩ : Version))].map Prod.fst).count 1 = 1 ↔
      candidatesOf examples.repoDocsTag none
        ([⟨"1.0.0", 1⟩, ⟨"docs", 2⟩].filter (tagsFilter none)) 1 ≠ []) ∧
    (candidatesOf examples.repoDocsTag none
        ([⟨"1.0.0", 1⟩, ⟨"docs", 2⟩].filter (tagsFilter none)) 2 = [] →
      ([(1, (⟨1, 0, 0, "", "", "1.0.0"⟩ : Version))].map Prod.fst).count 2 = 0 ∧
      mapGet [(1, (⟨1, 0, 0, "", "", "1.0.0"⟩ : Version))] 2 = none) ∧
    GetAllSemVerTags examples.repoUntagged none none = ([], none) :=
  ⟨((one_entry_per_tagged_commit examples.repoDocsTag none none
      [⟨"1.0.0", 1⟩, ⟨"docs", 2⟩] rfl).1 _ (by decide) 1).1,
    ((one_entry_per_tagged_commit examples.repoDocsTag none none
      [⟨"1.0.0", 1⟩, ⟨"docs", 2⟩] rfl).1 _ (by decide) 2).2,
    (one_entry_per_tagged_commit examples.repoUntagged none none [] rfl).2
      (by intro tag htag; simp at htag)⟩

/-- C18: when `GetAllSemVerTags` fails with the conflict error for commit
`h`, the map returned is empty, `h` has at least two candidates, and one of
the candidates after the first is not compatible with the first. -/
theorem conflict_names_offending_commit (repository : Repository)
    (tagsFilterPathRegex versionRegex : Option Regexp) (refs : List Reference) (tags : Tags)
    (h : Hash) (hrefs : repository.Tags = .ok refs)
    (herr : GetAllSemVerTags repository tagsFilterPathRegex versionRegex =
      (tags, some (.multipleSemver h))) :
    tags = [] ∧
    2 ≤ (candidatesOf repository versionRegex
      (refs.filter (tagsFilter tagsFilterPathRegex)) h).length ∧
    ∃ first rest,
      candidatesOf repository versionRegex
        (refs.filter (tagsFilter tagsFilterPathRegex)) h = first :: rest ∧
      ∃ c ∈ rest, areCompatibleGranularities first.version c.version = false := by
  obtain ⟨groups, -, hres, hnd, -, hg⟩ :=
    groups_of_outcome repository tagsFilterPathRegex versionRegex refs tags _ hrefs herr
      (by simp)
  obtain ⟨ht, cs, hmem, hd⟩ := resolveCommitTags_conflict groups [] tags h hres
  have hm := mapGet_of_mem groups h cs hnd hmem
  have hcs := hg h
  rw [hm] at hcs
  simp only [Option.getD_some] at hcs
  rw [← hcs]
  exact ⟨ht, hasDifferentVersions_spec cs hd⟩

/-- Witness of C18: commit 1 resolves, commit 2 carries "2.0.0" and
"3.0.0"; the map returned with the error is empty. -/
theorem conflict_names_offending_commit_witness :
    ([] : Tags) = [] ∧
    2 ≤ (candidatesOf examples.repoLaterConflict none
      ([⟨"1.0.0", 1⟩, ⟨"2.0.0", 2⟩, ⟨"3.0.0", 2⟩].filter (tagsFilter none)) 2).length ∧
    ∃ first rest,
      candidatesOf examples.repoLaterConflict none
        ([⟨"1.0.0", 1⟩, ⟨"2.0.0", 2⟩, ⟨"3.0.0", 2⟩].filter (tagsFilter none)) 2 =
        first :: rest ∧
      ∃ c ∈ rest, areCompatibleGranularities first.version c.version = false :=
  conflict_names_offending_commit examples.repoLaterConflict none none
    [⟨"1.0.0", 1⟩, ⟨"2.0.0", 2⟩, ⟨"3.0.0", 2⟩] [] 2 rfl (by decide)

/-- C19 fails on the code: for the flag value "!docs/" the predicate handed
to the walk is "the pattern `!docs/` matches", so it rejects `src/main.go`
(which `docs/` does not match) and accepts only paths that contain `!docs/`;
`ToPathRegex` does split the "!" off and sets `Exclude`, but `RootCommand`
does not call it. -/
theorem negated_pattern_not_inverted :
    (cli.pathPredicate examples.compileLiteral "!docs/").map
        (fun p => (p "src/main.go", p "docs/x", p "a!docs/x")) = some (false, false, true) ∧
    (examples.literal "docs/").MatchString "src/main.go" = false ∧
    (examples.literal "docs/").MatchString "docs/x" = true ∧
    (util.ToPathRegex examples.compileLiteral "!docs/").1.Exclude = true ∧
    (util.ToPathRegex examples.compileLiteral "!docs/").1.Regex.map
        (fun re => (re.MatchString "src/main.go", re.MatchString "docs/x")) =
      some (false, true) := by
  decide

/-- C20: a tag stands for the commit of its tag object when it has one, for
the hash of the reference when no tag object is found, and for nothing when
the lookup or the dereference fails otherwise; on success the candidate of a
tag is among the candidates of the commit it stands for, and that commit has
an entry in the map; so the scan stops at a commit that a parsing tag,
annotated or not, stands for; and the first tag, in enumeration order, whose
lookup or dereference fails makes `GetAllSemVerTags` return that error and
an empty map. -/
theorem annotated_tags_dereferenced (repository : Repository)
    (tagsFilterPathRegex versionRegex : Option Regexp) (refs : List Reference)
    (hrefs : repository.Tags = .ok refs) :
    (∀ (tag : Reference) (c : Hash), repository.TagObject tag.Hash = .ok ⟨.ok c⟩ →
      commitHashOf repository tag = .ok c) ∧
    (∀ tag : Reference, repository.TagObject tag.Hash = .error .ErrObjectNotFound →
      commitHashOf repository tag = .ok tag.Hash) ∧
    (∀ (tag : Reference) (e : LibError),
      (repository.TagObject tag.Hash = .error e ∧ e ≠ .ErrObjectNotFound) ∨
        repository.TagObject tag.Hash = .ok ⟨.error e⟩ →
      commitHashOf repository tag = .error e) ∧
    (∀ tags : Tags,
      GetAllSemVerTags repository tagsFilterPathRegex versionRegex = (tags, none) →
      ∀ tag ∈ refs.filter (tagsFilter tagsFilterPathRegex),
      ∀ (c : Hash) (version : Version), commitHashOf repository tag = .ok c →
        NewVersion (versionString versionRegex tag.Name) = some version →
        (⟨tag.Name, version⟩ : tagCandidate) ∈ candidatesOf repository versionRegex
          (refs.filter (tagsFilter tagsFilterPathRegex)) c ∧
        (mapGet tags c).isSome = true) ∧
    (∀ (tags : Tags) (classifier : TypeClassifier) (commitsFilterPathRegex : Option Regexp)
      (head : Reference) (pre : List Commit) (b : Commit) (rest : List Commit)
      (err : LibError),
      GetAllSemVerTags repository tagsFilterPathRegex versionRegex = (tags, none) →
      repository.Head = .ok head →
      repository.Log ⟨head.Hash, pathFilter commitsFilterPathRegex⟩ =
        .ok ⟨pre ++ b :: rest, err⟩ →
      (∀ p ∈ pre, mapGet tags p.Hash = none) →
      (∃ tag ∈ refs.filter (tagsFilter tagsFilterPathRegex),
        commitHashOf repository tag = .ok b.Hash ∧ parses versionRegex tag = true) →
      ∃ version, mapGet tags b.Hash = some version ∧
        GetConventionalCommitTypesSinceLastRelease repository classifier
          commitsFilterPathRegex tagsFilterPathRegex versionRegex =
          (⟨some version, some (pre.map (commitTypeOf classifier))⟩, none)) ∧
    (∀ (pre : List Reference) (t : Reference) (post : List Reference) (e : LibError),
      refs.filter (tagsFilter tagsFilterPathRegex) = pre ++ t :: post →
      (∀ p ∈ pre, ∃ c, commitHashOf repository p = .ok c) →
      commitHashOf repository t = .error e →
      GetAllSemVerTags repository tagsFilterPathRegex versionRegex =
        ([], some (.lib e))) := by
  have hgroup : ∀ tags : Tags,
      GetAllSemVerTags repository tagsFilterPathRegex versionRegex = (tags, none) →
      ∀ tag ∈ refs.filter (tagsFilter tagsFilterPathRegex),
      ∀ (c : Hash) (version : Version), commitHashOf repository tag = .ok c →
        NewVersion (versionString versionRegex tag.Name) = some version →
        (⟨tag.Name, version⟩ : tagCandidate) ∈ candidatesOf repository versionRegex
          (refs.filter (tagsFilter tagsFilterPathRegex)) c ∧
        (mapGet tags c).isSome = true := by
    intro tags hok tag htag c version hc hv
    have hmem := candidate_mem repository versionRegex _ tag c version htag hc hv
    refine ⟨hmem, ?_⟩
    exact (entry_iff_candidates repository tagsFilterPathRegex versionRegex refs tags hrefs
      hok c).2.1 (List.ne_nil_of_mem hmem)
  refine ⟨?_, ?_, ?_, hgroup, ?_, ?_⟩
  · intro tag c h
    simp [commitHashOf, h]
  · intro tag h
    simp [commitHashOf, h]
  · intro tag e h
    rcases h with ⟨h, hne⟩ | h
    · unfold commitHashOf
      rw [h]
      cases e <;> simp at hne ⊢
    · simp [commitHashOf, h]
  · intro tags classifier commitsFilterPathRegex head pre b rest err hok hhead hlog hpre hex
    obtain ⟨tag, htag, hc, hp⟩ := hex
    cases hv : NewVersion (versionString versionRegex tag.Name) with
    | none => simp [parses, hv] at hp
    | some v =>
      have hsome := (hgroup tags hok tag htag b.Hash v hc hv).2
      cases hm : mapGet tags b.Hash with
      | none => simp [hm] at hsome
      | some version =>
        exact ⟨version, rfl, scan_at_boundary repository classifier _ _ _ tags head pre b
          rest err version hok hhead hlog hpre hm⟩
  · intro pre t post e hdec hpre ht
    unfold GetAllSemVerTags
    simp only [hrefs, hdec, forEach_error repository versionRegex pre [] t post e hpre ht]

/-- Witness of C20: the annotated tag "1.0.0" (tag object 50) stands for
commit 1, where the scan stops. -/
theorem annotated_tags_dereferenced_witness :
    commitHashOf examples.repoAnnotated ⟨"1.0.0", 50⟩ = .ok 1 ∧
    ∃ version, mapGet [(1, (⟨1, 0, 0, "", "", "1.0.0"⟩ : Version))] 1 = some version ∧
      GetConventionalCommitTypesSinceLastRelease examples.repoAnnotated examples.classifier
        none none none = (⟨some version, some [.Fix]⟩, none) :=
  ⟨(annotated_tags_dereferenced examples.repoAnnotated none none [⟨"1.0.0", 50⟩] rfl).1
      ⟨"1.0.0", 50⟩ 1 rfl,
    (annotated_tags_dereferenced examples.repoAnnotated none none
      [⟨"1.0.0", 50⟩] rfl).2.2.2.2.1
      [(1, ⟨1, 0, 0, "", "", "1.0.0"⟩)] examples.classifier none ⟨"main", 2⟩
      [⟨2, "fix: x"⟩] ⟨1, "Last release"⟩ [] .EOF (by decide) rfl rfl (by decide)
      ⟨⟨"1.0.0", 50⟩, by decide, rfl, by decide⟩⟩

/-- C21, as stated, fails: 4.1.0 is compatible with 4.0.0 and 4.0.0 with
4.2.0, but 4.1.0 is not compatible with 4.2.0; and for the candidates "v4",
"v4.1.0", "v4.2.0" the comparison with the first one accepts the list that
the all-pairs comparison rejects. -/
theorem compatibility_not_transitive :
    areCompatibleGranularities ⟨4, 1, 0, "", "", "v4.1.0"⟩ ⟨4, 0, 0, "", "", "v4"⟩ = true ∧
    areCompatibleGranularities ⟨4, 0, 0, "", "", "v4"⟩ ⟨4, 2, 0, "", "", "v4.2.0"⟩ = true ∧
    areCompatibleGranularities ⟨4, 1, 0, "", "", "v4.1.0"⟩ ⟨4, 2, 0, "", "", "v4.2.0"⟩ =
      false ∧
    hasDifferentVersions
      [⟨"v4", ⟨4, 0, 0, "", "", "v4"⟩⟩, ⟨"v4.1.0", ⟨4, 1, 0, "", "", "v4.1.0"⟩⟩,
        ⟨"v4.2.0", ⟨4, 2, 0, "", "", "v4.2.0"⟩⟩] = false ∧
    allPairsCompatible
      [⟨"v4", ⟨4, 0, 0, "", "", "v4"⟩⟩, ⟨"v4.1.0", ⟨4, 1, 0, "", "", "v4.1.0"⟩⟩,
        ⟨"v4.2.0", ⟨4, 2, 0, "", "", "v4.2.0"⟩⟩] = false := by
  decide

/-- C21, amended: compatibility is transitive through a middle version `b`
whose patch is not 0: if `a` is compatible with `b` and `b` with `c`, then
`a` is compatible with `c`; hence, when the first candidate has such a
version, the comparison of every candidate with the first one accepts a
candidate list exactly when the all-pairs comparison accepts it. -/
theorem transitive_through_full_version (b : Version) (hb : b.patch ≠ 0) :
    (∀ a c : Version, areCompatibleGranularities a b = true →
      areCompatibleGranularities b c = true → areCompatibleGranularities a c = true) ∧
    (∀ (first : tagCandidate) (rest : List tagCandidate), first.version = b →
      (hasDifferentVersions (first :: rest) = false ↔
        allPairsCompatible (first :: rest) = true)) := by
  refine ⟨fun a c hab hbc => compatible_trans_of_patch a b c hb hab hbc, ?_⟩
  intro first rest hfb
  constructor
  · intro hp
    rw [pivot_accepts_iff] at hp
    rw [allPairsCompatible_iff]
    have hfirst : ∀ x ∈ first :: rest,
        areCompatibleGranularities first.version x.version = true := by
      intro x hx
      rcases List.mem_cons.mp hx with rfl | hx
      · exact compatible_refl _
      · exact hp x hx
    intro x hx y hy
    have h1 : areCompatibleGranularities x.version b = true := by
      rw [compatible_symm, ← hfb]
      exact hfirst x hx
    have h2 : areCompatibleGranularities b y.version = true := by
      rw [← hfb]
      exact hfirst y hy
    exact compatible_trans_of_patch _ b _ hb h1 h2
  · exact pivot_of_allPairs _

/-- Witness of amended C21 with `b` = 4.5.14: 4.0.0 and 4.5.0 are compatible,
and both comparisons agree on "v4.5.14", "v4", "v4.5". -/
theorem transitive_through_full_version_witness :
    areCompatibleGranularities ⟨4, 0, 0, "", "", "v4"⟩ ⟨4, 5, 0, "", "", "v4.5"⟩ = true ∧
    (hasDifferentVersions
        [⟨"v4.5.14", ⟨4, 5, 14, "", "", "v4.5.14"⟩⟩, ⟨"v4", ⟨4, 0, 0, "", "", "v4"⟩⟩, ⟨"v4.5", ⟨4, 5, 0, "", "", "v4.5"⟩⟩] = false ↔
      allPairsCompatible
        [⟨"v4.5.14", ⟨4, 5, 14, "", "", "v4.5.14"⟩⟩, ⟨"v4", ⟨4, 0, 0, "", "", "v4"⟩⟩, ⟨"v4.5", ⟨4, 5, 0, "", "", "v4.5"⟩⟩] = true) :=
  ⟨(transitive_through_full_version ⟨4, 5, 14, "", "", "v4.5.14"⟩ (by decide)).1
      ⟨4, 0, 0, "", "", "v4"⟩ ⟨4, 5, 0, "", "", "v4.5"⟩ (by decide) (by decide),
    (transitive_through_full_version ⟨4, 5, 14, "", "", "v4.5.14"⟩ (by decide)).2
      ⟨"v4.5.14", ⟨4, 5, 14, "", "", "v4.5.14"⟩⟩ [⟨"v4", ⟨4, 0, 0, "", "", "v4"⟩⟩, ⟨"v4.5", ⟨4, 5, 0, "", "", "v4.5"⟩⟩] rfl⟩

/-- C23: when `GetAllSemVerTags` fails, the scan returns that same error
with an empty result, whatever the head and the history of the repository
are; the error is a library error (tag enumeration, tag-object lookup or
dereference) or the conflict error, never `ErrNoCommitsFound`. -/
theorem tag_errors_come_first (repository : Repository) (classifier : TypeClassifier)
    (commitsFilterPathRegex tagsFilterRegex versionRegex : Option Regexp)
    (tags : Tags) (err : Error)
    (hfail : GetAllSemVerTags repository tagsFilterRegex versionRegex = (tags, some err)) :
    GetConventionalCommitTypesSinceLastRelease repository classifier commitsFilterPathRegex
        tagsFilterRegex versionRegex = (⟨none, none⟩, some err) ∧
    (∀ (head : Except LibError Reference) (log : LogOptions → Except LibError CommitIter),
      GetConventionalCommitTypesSinceLastRelease (withHistory repository head log)
        classifier commitsFilterPathRegex tagsFilterRegex versionRegex =
        (⟨none, none⟩, some err)) ∧
    ((∃ e, err = .lib e) ∨ (∃ h, err = .multipleSemver h)) ∧
    err ≠ .ErrNoCommitsFound := by
  have hkind := GetAllSemVerTags_error_kind repository tagsFilterRegex versionRegex tags err
    hfail
  refine ⟨?_, ?_, hkind, ?_⟩
  · simp [GetConventionalCommitTypesSinceLastRelease, hfail, emptyResult]
  · intro head log
    have := GetAllSemVerTags_withHistory repository head log tagsFilterRegex versionRegex
    simp [GetConventionalCommitTypesSinceLastRelease, this, hfail, emptyResult]
  · rcases hkind with ⟨e, rfl⟩ | ⟨h, rfl⟩ <;> simp

/-- Witness of C23: the tags cannot be enumerated and the head is missing;
the caller sees the enumeration error. -/
theorem tag_errors_come_first_witness :
    examples.repoNoTagsNoHead.Head = .error .ErrReferenceNotFound ∧
    GetConventionalCommitTypesSinceLastRelease examples.repoNoTagsNoHead examples.classifier
        none none none =
      (⟨none, none⟩, some (.lib (.other "packed-refs not readable"))) ∧
    Error.lib (.other "packed-refs not readable") ≠ Error.ErrNoCommitsFound :=
  ⟨rfl,
    (tag_errors_come_first examples.repoNoTagsNoHead examples.classifier none none none []
      (.lib (.other "packed-refs not readable")) (by decide)).1,
    (tag_errors_come_first examples.repoNoTagsNoHead examples.classifier none none none []
      (.lib (.other "packed-refs not readable")) (by decide)).2.2.2⟩

/-- C24: `areCompatibleGranularities` gives the same answer on versions with
the same major, minor and patch; so two tags of one commit, the only tags of
the repository, whose versions agree in major, minor and patch (a release and
a pre-release of it) are compatible, the resolution succeeds, and the version
stored is that of the tag with more "." in its name, the first one when both
have as many. -/
theorem compatibility_ignores_prerelease (repository : Repository)
    (versionRegex : Option Regexp) (t1 t2 : Reference) (v1 v2 : Version) (h : Hash)
    (hrefs : repository.Tags = .ok [t1, t2])
    (h1 : commitHashOf repository t1 = .ok h) (h2 : commitHashOf repository t2 = .ok h)
    (hv1 : NewVersion (versionString versionRegex t1.Name) = some v1)
    (hv2 : NewVersion (versionString versionRegex t2.Name) = some v2)
    (htriple : v1.major = v2.major ∧ v1.minor = v2.minor ∧ v1.patch = v2.patch) :
    (∀ l l' r r' : Version,
      l.major = l'.major ∧ l.minor = l'.minor ∧ l.patch = l'.patch →
      r.major = r'.major ∧ r.minor = r'.minor ∧ r.patch = r'.patch →
      areCompatibleGranularities l r = areCompatibleGranularities l' r') ∧
    areCompatibleGranularities v1 v2 = true ∧
    (getTagSpecificity t1.Name < getTagSpecificity t2.Name →
      GetAllSemVerTags repository none versionRegex = ([(h, v2)], none)) ∧
    (getTagSpecificity t2.Name ≤ getTagSpecificity t1.Name →
      GetAllSemVerTags repository none versionRegex = ([(h, v1)], none)) := by
  have hc : areCompatibleGranularities v1 v2 = true := by
    rw [compatible_of_triples v1 v2 v2 v2 htriple ⟨rfl, rfl, rfl⟩]
    exact compatible_refl v2
  have hout := two_tags_outcome repository versionRegex t1 t2 v1 v2 h hrefs h1 h2 hv1 hv2 hc
  refine ⟨compatible_of_triples, hc, ?_, ?_⟩
  · intro hs
    rw [hout, if_pos hs]
  · intro hs
    rw [hout, if_neg (not_lt.mpr hs)]

/-- Witness of C24: "v1.2.3" and "v1.2.3-rc.1" on one commit resolve to the
pre-release 1.2.3-rc.1. -/
theorem compatibility_ignores_prerelease_witness :
    areCompatibleGranularities ⟨1, 2, 3, "", "", "v1.2.3"⟩
      ⟨1, 2, 3, "rc.1", "", "v1.2.3-rc.1"⟩ = true ∧
    GetAllSemVerTags examples.repoPreRelease none none =
      ([(7, ⟨1, 2, 3, "rc.1", "", "v1.2.3-rc.1"⟩)], none) :=
  ⟨(compatibility_ignores_prerelease examples.repoPreRelease none ⟨"v1.2.3", 7⟩
      ⟨"v1.2.3-rc.1", 7⟩ ⟨1, 2, 3, "", "", "v1.2.3"⟩ ⟨1, 2, 3, "rc.1", "", "v1.2.3-rc.1"⟩ 7
      rfl rfl rfl (by decide) (by decide) (by decide)).2.1,
    (compatibility_ignores_prerelease examples.repoPreRelease none ⟨"v1.2.3", 7⟩
      ⟨"v1.2.3-rc.1", 7⟩ ⟨1, 2, 3, "", "", "v1.2.3"⟩ ⟨1, 2, 3, "rc.1", "", "v1.2.3-rc.1"⟩ 7
      rfl rfl rfl (by decide) (by decide) (by decide)).2.2.1 (by decide)⟩

/-- C25: `areCompatibleGranularities` is reflexive and symmetric. -/
theorem compatible_reflexive_symmetric (l r : Version) :
    areCompatibleGranularities l l = true ∧
    areCompatibleGranularities l r = areCompatibleGranularities r l :=
  ⟨compatible_refl l, compatible_symm l r⟩

end git

namespace util

/-- C22: `ToPathRegex(s)` succeeds exactly when `s` without one leading "!"
compiles; on success `Regex` is that compilation and `Exclude` tells whether
`s` starts with "!"; on failure the zero value is returned with the error of
`regexp.Compile`; `trimBang` removes exactly one "!" from a string that
starts with one and leaves every other string unchanged. -/
theorem to_path_regex_spec (Compile : String → Except LibError Regexp) (s : String) :
    ((ToPathRegex Compile s).2 = none ↔ ∃ re, Compile (trimBang s) = .ok re) ∧
    (∀ re : Regexp, Compile (trimBang s) = .ok re →
      ToPathRegex Compile s = (⟨some re, hasBang s⟩, none)) ∧
    (∀ e : LibError, Compile (trimBang s) = .error e →
      ToPathRegex Compile s = (⟨none, false⟩, some e)) ∧
    (hasBang s = true → s.toList = '!' :: (trimBang s).toList) ∧
    (hasBang s = false → trimBang s = s) := by
  refine ⟨?_, ?_, ?_, (bang_spec s).1, (bang_spec s).2⟩
  · rw [ToPathRegex_eq]
    cases Compile (trimBang s) with
    | error e => simp
    | ok re => simp
  · intro re hre
    rw [ToPathRegex_eq, hre]
  · intro e he
    rw [ToPathRegex_eq, he]

/-- Witness of C22: "!!a" gives `Exclude` and the pattern "!a"; "a" is
compiled unchanged without `Exclude`. -/
theorem to_path_regex_spec_witness :
    ToPathRegex examples.compileLiteral "!!a" = (⟨some (examples.literal "!a"), true⟩, none) ∧
    ToPathRegex examples.compileLiteral "a" = (⟨some (examples.literal "a"), false⟩, none) ∧
    "!!a".toList = '!' :: (trimBang "!!a").toList ∧ trimBang "a" = "a" :=
  ⟨(to_path_regex_spec examples.compileLiteral "!!a").2.1 (examples.literal "!a") rfl,
    (to_path_regex_spec examples.compileLiteral "a").2.1 (examples.literal "a") rfl,
    (to_path_regex_spec examples.compileLiteral "!!a").2.2.2.1 (by decide),
    (to_path_regex_spec examples.compileLiteral "a").2.2.2.2 (by decide)⟩

end util
